import Mathlib

/-!
# SpaceWheat: the batched Lindblad evolution engine

A shallow embedding of `native/src/quantum_evolution_engine.{h,cpp}`, of the packing
methods of `native/src/quantum_matrix_native.cpp`, and of the wrapper
`native/src/quantum_solver_cpu_native.{h,cpp}` over the core solver class declared in
`native/src/quantum_solver_cpu.h`.

Modelling conventions.

* `double` and `float` values are rationals (`ℚ`): no NaN and no infinities, and the
  matrix arithmetic on doubles is exact.  Two places decide something discrete from a
  rounded value, and there the rounding is modelled: the quotient `dt / max_dt`, the
  conversion of `num_steps` to float and the quotient `dt / num_steps` of `evolve` are
  rounded to binary32 (`float_round`, with `2^128` standing for an infinite result), and
  the literal `1e-15` is the binary64 value it denotes (`double_1e_15`).  A division by zero
  gives `0`.  `std::complex<double>` is the structure `Cx` of a rational real and
  imaginary part, with the usual complex ring operations and conjugation.
* `PackedFloat64Array` is `List ℚ`.  A read past the end of the buffer, which is
  undefined in C++, yields `0` here; the theorems that read a buffer carry its length
  as a hypothesis.
* `Eigen::MatrixXcd` and `Eigen::SparseMatrix<std::complex<double>, RowMajor>` are both
  the structure `Mat`: the two dimensions and the coefficient accessor `coeff i j`.
  Sparse versus dense storage is a storage choice that no coefficient depends on.
  A product of matrices whose inner dimensions differ, which Eigen rejects by an
  assertion, sums over the left factor's column range here, and a sum or difference
  takes the dimensions of its left operand; the theorems that evolve a matrix carry the
  dimensions as hypotheses.
* A triplet addressed outside the matrix, which `setFromTriplets` rejects by an
  assertion, contributes to no coefficient here.
* `int` is `ℤ` (no overflow; signed overflow is undefined in C++).  A loop
  `for (int i = 0; i < n; i++)` runs over `List.range n.toNat`.  The conversion of the
  substep count of `evolve` to `int` is bounded (`to_int32`): a value outside the range
  of `int`, for which the conversion is undefined in C++, gives `INT_MIN`, as the
  conversion instruction of x86-64 does.
* The engine object is the record `QuantumEvolutionEngine` of its private members; a
  `void` method is a function from engine to engine, and `evolve_step` / `evolve`,
  which write no member, are functions from the engine and the arguments to the
  returned array.  Warnings (`push_warning`, `ERR_PRINT`) are not modelled.
* A method of the wrapper `QuantumSolverCPUNative` returns an `Outcome`: the wrapper
  after the call, the returned value, and two counters, the elements read from the
  argument buffers and the calls of methods of the core solver.
-/

namespace SpaceWheat

/-! ## Complex scalars -/

/-- The scalar type `std::complex<double>` over exact rationals. -/
@[ext]
structure Cx where
  re : ℚ
  im : ℚ
  deriving DecidableEq

namespace Cx

instance : Zero Cx := ⟨⟨0, 0⟩⟩
instance : One Cx := ⟨⟨1, 0⟩⟩
instance : Add Cx := ⟨fun a b => ⟨a.re + b.re, a.im + b.im⟩⟩
instance : Neg Cx := ⟨fun a => ⟨-a.re, -a.im⟩⟩
instance : Sub Cx := ⟨fun a b => ⟨a.re - b.re, a.im - b.im⟩⟩
instance : Mul Cx := ⟨fun a b => ⟨a.re * b.re - a.im * b.im, a.re * b.im + a.im * b.re⟩⟩
instance : Star Cx := ⟨fun a => ⟨a.re, -a.im⟩⟩
instance : Inhabited Cx := ⟨0⟩

instance : CommRing Cx where
  add_assoc a b c := Cx.ext (add_assoc a.re b.re c.re) (add_assoc a.im b.im c.im)
  zero_add a := Cx.ext (zero_add a.re) (zero_add a.im)
  add_zero a := Cx.ext (add_zero a.re) (add_zero a.im)
  add_comm a b := Cx.ext (add_comm a.re b.re) (add_comm a.im b.im)
  neg_add_cancel a := Cx.ext (neg_add_cancel a.re) (neg_add_cancel a.im)
  sub_eq_add_neg a b := Cx.ext (sub_eq_add_neg a.re b.re) (sub_eq_add_neg a.im b.im)
  mul_assoc a b c := Cx.ext
    (show (a.re * b.re - a.im * b.im) * c.re - (a.re * b.im + a.im * b.re) * c.im =
      a.re * (b.re * c.re - b.im * c.im) - a.im * (b.re * c.im + b.im * c.re) by ring)
    (show (a.re * b.re - a.im * b.im) * c.im + (a.re * b.im + a.im * b.re) * c.re =
      a.re * (b.re * c.im + b.im * c.re) + a.im * (b.re * c.re - b.im * c.im) by ring)
  one_mul a := Cx.ext (show 1 * a.re - 0 * a.im = a.re by ring)
    (show 1 * a.im + 0 * a.re = a.im by ring)
  mul_one a := Cx.ext (show a.re * 1 - a.im * 0 = a.re by ring)
    (show a.re * 0 + a.im * 1 = a.im by ring)
  left_distrib a b c := Cx.ext
    (show a.re * (b.re + c.re) - a.im * (b.im + c.im) =
      a.re * b.re - a.im * b.im + (a.re * c.re - a.im * c.im) by ring)
    (show a.re * (b.im + c.im) + a.im * (b.re + c.re) =
      a.re * b.im + a.im * b.re + (a.re * c.im + a.im * c.re) by ring)
  right_distrib a b c := Cx.ext
    (show (a.re + b.re) * c.re - (a.im + b.im) * c.im =
      a.re * c.re - a.im * c.im + (b.re * c.re - b.im * c.im) by ring)
    (show (a.re + b.re) * c.im + (a.im + b.im) * c.re =
      a.re * c.im + a.im * c.re + (b.re * c.im + b.im * c.re) by ring)
  zero_mul a := Cx.ext (show 0 * a.re - 0 * a.im = 0 by ring)
    (show 0 * a.im + 0 * a.re = 0 by ring)
  mul_zero a := Cx.ext (show a.re * 0 - a.im * 0 = 0 by ring)
    (show a.re * 0 + a.im * 0 = 0 by ring)
  mul_comm a b := Cx.ext
    (show a.re * b.re - a.im * b.im = b.re * a.re - b.im * a.im by ring)
    (show a.re * b.im + a.im * b.re = b.re * a.im + b.im * a.re by ring)
  nsmul := nsmulRec
  zsmul := zsmulRec

instance : StarRing Cx where
  star_involutive a := Cx.ext rfl (neg_neg a.im)
  star_mul a b := Cx.ext
    (show a.re * b.re - a.im * b.im = b.re * a.re - -b.im * -a.im by ring)
    (show -(a.re * b.im + a.im * b.re) = b.re * -a.im + -b.im * a.re by ring)
  star_add a b := Cx.ext rfl (neg_add a.im b.im)

/-- The real scalar `x` as a complex number: `std::complex<double>(x, 0.0)`. -/
def ofReal (x : ℚ) : Cx := ⟨x, 0⟩

/-- The constant `std::complex<double>(0.0, -1.0)`. -/
def negI : Cx := ⟨0, -1⟩

end Cx

/-! ## Matrices -/

/-- An Eigen matrix of complex doubles: its dimensions and its coefficient accessor. -/
structure Mat where
  rows : ℕ
  cols : ℕ
  coeff : ℕ → ℕ → Cx

namespace Mat

/-- The default-constructed matrix, and `resize(0, 0)`. -/
def empty : Mat := ⟨0, 0, fun _ _ => 0⟩

instance : Inhabited Mat := ⟨empty⟩

/-- The matrix `Eigen::MatrixXcd::Zero(r, c)`. -/
def Zero (r c : ℕ) : Mat := ⟨r, c, fun _ _ => 0⟩

/-- The sum `A + B`. -/
def add (A B : Mat) : Mat := ⟨A.rows, A.cols, fun i j => A.coeff i j + B.coeff i j⟩

/-- The difference `A - B`. -/
def sub (A B : Mat) : Mat := ⟨A.rows, A.cols, fun i j => A.coeff i j - B.coeff i j⟩

/-- The scalar multiple `c * A`. -/
def smul (c : Cx) (A : Mat) : Mat := ⟨A.rows, A.cols, fun i j => c * A.coeff i j⟩

/-- The product `A * B`. -/
def mul (A B : Mat) : Mat :=
  ⟨A.rows, B.cols, fun i j => Finset.sum (Finset.range A.cols) fun k => A.coeff i k * B.coeff k j⟩

/-- The conjugate transpose `A.adjoint()`. -/
def adjoint (A : Mat) : Mat := ⟨A.cols, A.rows, fun i j => star (A.coeff j i)⟩

end Mat

/-! ## Machine numbers -/

/-- The double literal `1e-15`: the binary64 value nearest to `10^-15`, which is
`2535301200456459 / 2^101` and lies above `10^-15`. -/
def double_1e_15 : ℚ := 2535301200456459 / 2 ^ 101

/-- The nearest integer to `x`, the even one of the two when `x` lies halfway. -/
def round_half_even (x : ℚ) : ℤ :=
  if x - (⌊x⌋ : ℚ) < 1 / 2 then ⌊x⌋
  else if 1 / 2 < x - (⌊x⌋ : ℚ) then ⌊x⌋ + 1
  else if ⌊x⌋ % 2 = 0 then ⌊x⌋ else ⌊x⌋ + 1

/-- The number of binary digits of `n`, by halving at most `fuel` times. -/
def bit_length_aux : ℕ → ℕ → ℕ
  | 0, _ => 0
  | fuel + 1, n => if n = 0 then 0 else bit_length_aux fuel (n / 2) + 1

/-- The number of binary digits of `n`: `0` for `0`, and `k + 1` for `2^k ≤ n < 2^(k+1)`. -/
def bit_length (n : ℕ) : ℕ := bit_length_aux n n

/-- The binary exponent of `x ≠ 0`: the `e` with `2^e ≤ |x| < 2^(e+1)`.  The difference of
the digit counts of numerator and denominator is `e` or `e + 1`. -/
def binary_exponent (x : ℚ) : ℤ :=
  let e : ℤ := (bit_length x.num.natAbs : ℤ) - (bit_length x.den : ℤ)
  if |x| < 2 ^ e then e - 1 else e

/-- The binary32 value of a real result `x` (round to nearest, ties to even): `x` is
rounded to a multiple of `2^(e - 23)`, where `e` is its binary exponent, at least `-126`
(below that the values are subnormal).  A result of magnitude `2^128` or more, which is
an infinity in binary32, is `2^128` with the sign of `x` here. -/
def float_round (x : ℚ) : ℚ :=
  if x = 0 then 0
  else
    let e : ℤ := max (binary_exponent x) (-126)
    let ulp : ℚ := 2 ^ (e - 23)
    let r : ℚ := (round_half_even (x / ulp) : ℚ) * ulp
    if 2 ^ 128 ≤ |r| then (if 0 < x then 2 ^ 128 else -(2 ^ 128)) else r

/-- The conversion `static_cast<int>(x)` of a float with the integer value `n`: `n` when
it lies in the range of a 32-bit `int`, and `INT_MIN` otherwise. -/
def to_int32 (n : ℤ) : ℤ := if -2 ^ 31 ≤ n ∧ n ≤ 2 ^ 31 - 1 then n else -2 ^ 31

/-! ## The engine -/

/-- An entry `Eigen::Triplet<std::complex<double>>`: row, column, value. -/
structure Triplet where
  row : ℤ
  col : ℤ
  value : Cx
  deriving DecidableEq

/-- The conversion `static_cast<int>(x)` of a double: truncation toward zero. -/
def toInt (x : ℚ) : ℤ := if 0 ≤ x then ⌊x⌋ else ⌈x⌉

/-- The matrix `L(r, c)` after `L.setFromTriplets(...)`: the coefficient at `(i, j)` is
the sum of the values of the triplets addressed to `(i, j)` (Eigen sums duplicates). -/
def setFromTriplets (r c : ℕ) (ts : List Triplet) : Mat :=
  ⟨r, c, fun i j =>
    ((ts.filter fun t => t.row = (i : ℤ) ∧ t.col = (j : ℤ)).map Triplet.value).sum⟩

/-- The private members of `QuantumEvolutionEngine`. -/
structure QuantumEvolutionEngine where
  m_dim : ℤ
  m_finalized : Bool
  m_hamiltonian : Mat
  m_has_hamiltonian : Bool
  m_lindblads : List Mat
  m_lindblad_dags : List Mat
  m_LdagLs : List Mat

namespace QuantumEvolutionEngine

/-- The constructor `QuantumEvolutionEngine()`. -/
def new : QuantumEvolutionEngine :=
  { m_dim := 0, m_finalized := false, m_hamiltonian := Mat.empty,
    m_has_hamiltonian := false, m_lindblads := [], m_lindblad_dags := [], m_LdagLs := [] }

/-- The helper `unpack_dense(data)`: entry `(i, j)` is read from positions
`(i * m_dim + j) * 2` and `(i * m_dim + j) * 2 + 1`. -/
def unpack_dense (s : QuantumEvolutionEngine) (data : List ℚ) : Mat :=
  { rows := s.m_dim.toNat
    cols := s.m_dim.toNat
    coeff := fun i j =>
      let idx := (i * s.m_dim.toNat + j) * 2
      ⟨data.getD idx 0, data.getD (idx + 1) 0⟩ }

/-- The helper `pack_dense(mat)`: the array is resized to `m_dim * m_dim * 2` and the two
nested loops write the real and imaginary part of entry `(i, j)` at `idx` and `idx + 1`. -/
def pack_dense (s : QuantumEvolutionEngine) (mat : Mat) : List ℚ :=
  let packed : List ℚ := List.replicate (s.m_dim * s.m_dim * 2).toNat 0
  (List.range s.m_dim.toNat).foldl (fun ptr i =>
    (List.range s.m_dim.toNat).foldl (fun ptr j =>
      let idx := (i * s.m_dim.toNat + j) * 2
      (ptr.set idx (mat.coeff i j).re).set (idx + 1) (mat.coeff i j).im) ptr) packed

/-- The method `set_dimension(dim)`. -/
def set_dimension (s : QuantumEvolutionEngine) (dim : ℤ) : QuantumEvolutionEngine :=
  { s with m_dim := dim, m_finalized := false }

/-- The method `set_hamiltonian(H_packed)`. -/
def set_hamiltonian (s : QuantumEvolutionEngine) (H_packed : List ℚ) :
    QuantumEvolutionEngine :=
  if s.m_dim = 0 then s
  else { s with m_hamiltonian := s.unpack_dense H_packed, m_has_hamiltonian := true,
                m_finalized := false }

/-- The parsing loop of `add_lindblad_triplets`: entry `i` is read from positions
`4 i .. 4 i + 3` and appended when its real or imaginary part exceeds the double `1e-15`
in absolute value. -/
def parse_triplets (triplets : List ℚ) : List Triplet :=
  let num_entries := triplets.length / 4
  (List.range num_entries).foldl (fun eigen_triplets i =>
    let row := toInt (triplets.getD (i * 4) 0)
    let col := toInt (triplets.getD (i * 4 + 1) 0)
    let re := triplets.getD (i * 4 + 2) 0
    let im := triplets.getD (i * 4 + 3) 0
    if |re| > double_1e_15 ∨ |im| > double_1e_15 then
      eigen_triplets ++ [⟨row, col, ⟨re, im⟩⟩]
    else eigen_triplets) []

/-- The method `add_lindblad_triplets(triplets)`. -/
def add_lindblad_triplets (s : QuantumEvolutionEngine) (triplets : List ℚ) :
    QuantumEvolutionEngine :=
  if s.m_dim = 0 then s
  else
    let L := setFromTriplets s.m_dim.toNat s.m_dim.toNat (parse_triplets triplets)
    { s with m_lindblads := s.m_lindblads ++ [L], m_finalized := false }

/-- The method `clear_operators()`. -/
def clear_operators (s : QuantumEvolutionEngine) : QuantumEvolutionEngine :=
  { s with m_lindblads := [], m_lindblad_dags := [], m_LdagLs := [],
           m_hamiltonian := Mat.empty, m_has_hamiltonian := false, m_finalized := false }

/-- The method `finalize()`: both caches are cleared and refilled, one adjoint and one
product `L_dag * L` per registered operator, in order. -/
def finalize (s : QuantumEvolutionEngine) : QuantumEvolutionEngine :=
  let caches : List Mat × List Mat :=
    s.m_lindblads.foldl (fun c L =>
      let L_dag := L.adjoint
      let LdagL := L_dag.mul L
      (c.1 ++ [L_dag], c.2 ++ [LdagL])) ([], [])
  { s with m_lindblad_dags := caches.1, m_LdagLs := caches.2, m_finalized := true }

/-- The method `get_dimension()`. -/
def get_dimension (s : QuantumEvolutionEngine) : ℤ := s.m_dim

/-- The method `get_lindblad_count()`. -/
def get_lindblad_count (s : QuantumEvolutionEngine) : ℤ := (s.m_lindblads.length : ℤ)

/-- The method `is_finalized()`. -/
def is_finalized (s : QuantumEvolutionEngine) : Bool := s.m_finalized

/-- The method `evolve_step(rho_data, dt)`. -/
def evolve_step (s : QuantumEvolutionEngine) (rho_data : List ℚ) (dt : ℚ) : List ℚ :=
  if !s.m_finalized then rho_data
  else
    let rho := s.unpack_dense rho_data
    let drho := Mat.Zero s.m_dim.toNat s.m_dim.toNat
    let drho :=
      if s.m_has_hamiltonian then
        let commutator := (s.m_hamiltonian.mul rho).sub (rho.mul s.m_hamiltonian)
        drho.add (Mat.smul Cx.negI commutator)
      else drho
    let drho := (List.range s.m_lindblads.length).foldl (fun drho k =>
      let L := s.m_lindblads.getD k Mat.empty
      let L_dag := s.m_lindblad_dags.getD k Mat.empty
      let LdagL := s.m_LdagLs.getD k Mat.empty
      let L_rho := L.mul rho
      let L_rho_Ldag := L_rho.mul L_dag
      let LdagL_rho := LdagL.mul rho
      let rho_LdagL := rho.mul LdagL
      drho.add (L_rho_Ldag.sub (Mat.smul (Cx.ofReal 0.5) (LdagL_rho.add rho_LdagL)))) drho
    let rho := rho.add (Mat.smul (Cx.ofReal dt) drho)
    s.pack_dense rho

/-- The method `evolve(rho_data, dt, max_dt)`. -/
def evolve (s : QuantumEvolutionEngine) (rho_data : List ℚ) (dt max_dt : ℚ) : List ℚ :=
  if !s.m_finalized then rho_data
  else if dt ≤ max_dt then s.evolve_step rho_data dt
  else
    let num_steps : ℤ := to_int32 ⌈float_round (dt / max_dt)⌉
    let sub_dt : ℚ := float_round (dt / float_round (num_steps : ℚ))
    let rho := s.unpack_dense rho_data
    let rho := (List.range num_steps.toNat).foldl (fun rho _ =>
      let drho := Mat.Zero s.m_dim.toNat s.m_dim.toNat
      let drho :=
        if s.m_has_hamiltonian then
          let commutator := (s.m_hamiltonian.mul rho).sub (rho.mul s.m_hamiltonian)
          drho.add (Mat.smul Cx.negI commutator)
        else drho
      let drho := (List.range s.m_lindblads.length).foldl (fun drho k =>
        let L := s.m_lindblads.getD k Mat.empty
        let L_dag := s.m_lindblad_dags.getD k Mat.empty
        let LdagL := s.m_LdagLs.getD k Mat.empty
        let L_rho_Ldag := (L.mul rho).mul L_dag
        let anticomm := (LdagL.mul rho).add (rho.mul LdagL)
        drho.add (L_rho_Ldag.sub (Mat.smul (Cx.ofReal 0.5) anticomm))) drho
      rho.add (Mat.smul (Cx.ofReal sub_dt) drho)) rho
    s.pack_dense rho

/-- A call of a public method. -/
inductive Call where
  | set_dimension (dim : ℤ)
  | set_hamiltonian (H_packed : List ℚ)
  | add_lindblad_triplets (triplets : List ℚ)
  | clear_operators
  | finalize
  | evolve_step (rho_data : List ℚ) (dt : ℚ)
  | evolve (rho_data : List ℚ) (dt max_dt : ℚ)

/-- The engine after a call. -/
def call (s : QuantumEvolutionEngine) : Call → QuantumEvolutionEngine
  | .set_dimension dim => s.set_dimension dim
  | .set_hamiltonian H_packed => s.set_hamiltonian H_packed
  | .add_lindblad_triplets triplets => s.add_lindblad_triplets triplets
  | .clear_operators => s.clear_operators
  | .finalize => s.finalize
  | .evolve_step _ _ => s
  | .evolve _ _ _ => s

/-- The engine after a sequence of calls on a newly constructed engine. -/
def run (calls : List Call) : QuantumEvolutionEngine := calls.foldl call new

/-- The states reachable from the constructor by calls of the public methods. -/
inductive Reachable : QuantumEvolutionEngine → Prop where
  | new : Reachable QuantumEvolutionEngine.new
  | call {s : QuantumEvolutionEngine} (c : Call) : Reachable s → Reachable (s.call c)

end QuantumEvolutionEngine

/-! ## Auxiliary definitions for the proofs -/

/-- The square complex matrices of side `d`. -/
abbrev CMatrix (d : ℕ) : Type := Matrix (Fin d) (Fin d) Cx

/-- The coefficients of `A` at the indices below `d`, as a `d`-by-`d` matrix. -/
def Mat.toMatrix (d : ℕ) (A : Mat) : CMatrix d := Matrix.of fun i j => A.coeff i j

/-- The matrix `drho` of `evolve_step`, and of each substep of `evolve`, as a function of
the current `rho`. -/
def QuantumEvolutionEngine.drho (s : QuantumEvolutionEngine) (rho : Mat) : Mat :=
  let drho := Mat.Zero s.m_dim.toNat s.m_dim.toNat
  let drho :=
    if s.m_has_hamiltonian then
      let commutator := (s.m_hamiltonian.mul rho).sub (rho.mul s.m_hamiltonian)
      drho.add (Mat.smul Cx.negI commutator)
    else drho
  (List.range s.m_lindblads.length).foldl (fun drho k =>
    let L := s.m_lindblads.getD k Mat.empty
    let L_dag := s.m_lindblad_dags.getD k Mat.empty
    let LdagL := s.m_LdagLs.getD k Mat.empty
    let L_rho := L.mul rho
    let L_rho_Ldag := L_rho.mul L_dag
    let LdagL_rho := LdagL.mul rho
    let rho_LdagL := rho.mul LdagL
    drho.add (L_rho_Ldag.sub (Mat.smul (Cx.ofReal 0.5) (LdagL_rho.add rho_LdagL)))) drho

/-- One Euler update `rho += dt * drho` on the unpacked matrix. -/
def QuantumEvolutionEngine.euler (s : QuantumEvolutionEngine) (dt : ℚ) (rho : Mat) : Mat :=
  rho.add (Mat.smul (Cx.ofReal dt) (s.drho rho))

/-- The dissipator term of one operator `L`, read with fresh caches. -/
def Mat.dissipatorTerm (rho L : Mat) : Mat :=
  ((L.mul rho).mul L.adjoint).sub
    (Mat.smul (Cx.ofReal 0.5) (((L.adjoint.mul L).mul rho).add (rho.mul (L.adjoint.mul L))))

/-- The caches hold the adjoint and the product `L_dag * L` of each registered operator,
in order. -/
def QuantumEvolutionEngine.CachesFresh (s : QuantumEvolutionEngine) : Prop :=
  s.m_lindblad_dags = s.m_lindblads.map Mat.adjoint ∧
  s.m_LdagLs = s.m_lindblads.map fun L => L.adjoint.mul L

namespace Layout

/-- The value that the packing loops leave at flat position `p`. -/
def packVal (d : ℕ) (mat : Mat) (p : ℕ) : ℚ :=
  if p % 2 = 0 then (mat.coeff (p / 2 / d) (p / 2 % d)).re
  else (mat.coeff (p / 2 / d) (p / 2 % d)).im

/-- The inner loop of `pack_dense` for row `i`, run for the first `m` columns. -/
def packRow (d : ℕ) (mat : Mat) (i m : ℕ) (ptr : List ℚ) : List ℚ :=
  (List.range m).foldl (fun ptr j =>
    (ptr.set ((i * d + j) * 2) (mat.coeff i j).re).set ((i * d + j) * 2 + 1)
      (mat.coeff i j).im) ptr

/-- The outer loop of `pack_dense`, run for the first `n` rows. -/
def packRows (d : ℕ) (mat : Mat) (n : ℕ) (ptr : List ℚ) : List ℚ :=
  (List.range n).foldl (fun ptr i => packRow d mat i d ptr) ptr

end Layout

/-! ## The specification side -/

/-- The matrix that a flat buffer denotes: row-major, interleaved real and imaginary
parts, so that entry `(i, j)` sits at positions `2 (i d + j)` and `2 (i d + j) + 1`. -/
def bufferMatrix (d : ℕ) (data : List ℚ) : CMatrix d :=
  Matrix.of fun i j =>
    ⟨data.getD (2 * ((i : ℕ) * d + (j : ℕ))) 0, data.getD (2 * ((i : ℕ) * d + (j : ℕ)) + 1) 0⟩

/-- The list `data` is the packing of the matrix `M`. -/
def IsPackingOf (d : ℕ) (data : List ℚ) (M : CMatrix d) : Prop :=
  data.length = 2 * d * d ∧ bufferMatrix d data = M

/-- The dissipator of one Lindblad operator:
`L ρ L† − ½ (L†L ρ + ρ L†L)`. -/
def dissipator {d : ℕ} (L ρ : CMatrix d) : CMatrix d :=
  L * ρ * L.conjTranspose -
    Cx.ofReal (1 / 2) • (L.conjTranspose * L * ρ + ρ * L.conjTranspose * L)

/-- The right-hand side of the master equation:
`−i [H, ρ] + Σ_k (L_k ρ L_k† − ½ {L_k†L_k, ρ})`, without the first term when no
Hamiltonian is registered. -/
def masterEquation {d : ℕ} (H : Option (CMatrix d)) (Ls : List (CMatrix d)) (ρ : CMatrix d) :
    CMatrix d :=
  (match H with
    | none => 0
    | some H => Cx.negI • (H * ρ - ρ * H)) +
  (Ls.map fun L => dissipator L ρ).sum

/-- The explicit Euler update `ρ + dt · dρ/dt`. -/
def eulerUpdate {d : ℕ} (H : Option (CMatrix d)) (Ls : List (CMatrix d)) (dt : ℚ)
    (ρ : CMatrix d) : CMatrix d :=
  ρ + Cx.ofReal dt • masterEquation H Ls ρ

/-- The number of substeps as the specification states it: `n = 1` if `dt ≤ max_dt`, and
`n = ceil(dt / max_dt)` otherwise, over exact arithmetic. -/
def substepCount (dt max_dt : ℚ) : ℕ :=
  if dt ≤ max_dt then 1 else (⌈dt / max_dt⌉ : ℤ).toNat

/-- The row address of the `k`-th 4-tuple `[row, col, re, im]` of a flat list. -/
def tupleRow (t : List ℚ) (k : ℕ) : ℤ := toInt (t.getD (k * 4) 0)

/-- The column address of the `k`-th 4-tuple of a flat list. -/
def tupleCol (t : List ℚ) (k : ℕ) : ℤ := toInt (t.getD (k * 4 + 1) 0)

/-- The value `re + i im` of the `k`-th 4-tuple of a flat list. -/
def tupleValue (t : List ℚ) (k : ℕ) : Cx := ⟨t.getD (k * 4 + 2) 0, t.getD (k * 4 + 3) 0⟩

/-- The `k`-th 4-tuple is below the threshold: `|re| ≤ 1e-15` and `|im| ≤ 1e-15`, with
`1e-15` the double that the literal denotes. -/
def tupleDropped (t : List ℚ) (k : ℕ) : Prop :=
  |t.getD (k * 4 + 2) 0| ≤ double_1e_15 ∧ |t.getD (k * 4 + 3) 0| ≤ double_1e_15

instance (t : List ℚ) (k : ℕ) : Decidable (tupleDropped t k) := by
  unfold tupleDropped
  infer_instance

/-- The indices of the 4-tuples of a flat list that are not below the threshold, in
order. -/
def retainedTuples (t : List ℚ) : List ℕ :=
  (List.range (t.length / 4)).filter fun k => ¬ tupleDropped t k

/-- The registered Hamiltonian as a `d`-by-`d` matrix, if one is registered. -/
def QuantumEvolutionEngine.hamiltonian? (s : QuantumEvolutionEngine) (d : ℕ) :
    Option (CMatrix d) :=
  if s.m_has_hamiltonian then some (s.m_hamiltonian.toMatrix d) else none

/-- The registered Lindblad operators as `d`-by-`d` matrices, in order. -/
def QuantumEvolutionEngine.lindblads (s : QuantumEvolutionEngine) (d : ℕ) :
    List (CMatrix d) :=
  s.m_lindblads.map (Mat.toMatrix d)

/-- The engine's dimension is `d`, and the registered Hamiltonian (if any) and every
registered Lindblad operator are `d`-by-`d`. -/
def QuantumEvolutionEngine.Sized (s : QuantumEvolutionEngine) (d : ℕ) : Prop :=
  s.m_dim = (d : ℤ) ∧
  (s.m_has_hamiltonian = true → s.m_hamiltonian.rows = d ∧ s.m_hamiltonian.cols = d) ∧
  ∀ L ∈ s.m_lindblads, L.rows = d ∧ L.cols = d

instance (s : QuantumEvolutionEngine) (d : ℕ) : Decidable (s.Sized d) := by
  unfold QuantumEvolutionEngine.Sized
  infer_instance

/-- An engine of dimension 2 with the Hamiltonian `diag(0, 1)` and the one operator
whose single entry `1` sits at `(0, 1)`, finalized. -/
def exampleEngine : QuantumEvolutionEngine :=
  QuantumEvolutionEngine.run
    [.set_dimension 2, .set_hamiltonian [0, 0, 0, 0, 0, 0, 1, 0],
     .add_lindblad_triplets [0, 1, 1, 0], .finalize]

/-- An engine of dimension 2 with the Hamiltonian `diag(0, 1)` and no Lindblad operator,
finalized. -/
def exampleHamiltonianEngine : QuantumEvolutionEngine :=
  QuantumEvolutionEngine.run
    [.set_dimension 2, .set_hamiltonian [0, 0, 0, 0, 0, 0, 1, 0], .finalize]

/-- The buffer of the matrix with all four entries `1/2`. -/
def examplePlus : List ℚ := [1 / 2, 0, 1 / 2, 0, 1 / 2, 0, 1 / 2, 0]

/-! ## The dense matrix object -/

/-- The private members of `QuantumMatrixNative` (`quantum_matrix_native.cpp`). -/
structure QuantumMatrixNative where
  m_matrix : Mat
  m_dim : ℤ

namespace QuantumMatrixNative

/-- The constructor `QuantumMatrixNative()`. -/
def new : QuantumMatrixNative := { m_matrix := Mat.empty, m_dim := 0 }

/-- The helper `pack_matrix(mat, dim)`: the array is resized to `dim * dim * 2` and the
two nested loops write the real and imaginary part of entry `(i, j)` at `idx` and
`idx + 1`. -/
def pack_matrix (mat : Mat) (dim : ℤ) : List ℚ :=
  let packed : List ℚ := List.replicate (dim * dim * 2).toNat 0
  (List.range dim.toNat).foldl (fun ptr i =>
    (List.range dim.toNat).foldl (fun ptr j =>
      let idx := (i * dim.toNat + j) * 2
      (ptr.set idx (mat.coeff i j).re).set (idx + 1) (mat.coeff i j).im) ptr) packed

/-- The method `from_packed(data, dim)`: the matrix is resized to `dim`-by-`dim` and entry
`(i, j)` is read from positions `(i * dim + j) * 2` and `(i * dim + j) * 2 + 1`. -/
def from_packed (_m : QuantumMatrixNative) (data : List ℚ) (dim : ℤ) : QuantumMatrixNative :=
  { m_dim := dim
    m_matrix :=
      { rows := dim.toNat
        cols := dim.toNat
        coeff := fun i j =>
          let idx := (i * dim.toNat + j) * 2
          ⟨data.getD idx 0, data.getD (idx + 1) 0⟩ } }

/-- The method `to_packed()`. -/
def to_packed (m : QuantumMatrixNative) : List ℚ := pack_matrix m.m_matrix m.m_dim

/-- The method `get_dimension()`. -/
def get_dimension (m : QuantumMatrixNative) : ℤ := m.m_dim

end QuantumMatrixNative

/-- The call `c` on the engine `s` does not change the dimension under registered
operators: it is not a `set_dimension(dim)` with a new `dim` made while a Hamiltonian or
a Lindblad operator is registered. -/
def QuantumEvolutionEngine.KeepsDimension (s : QuantumEvolutionEngine) :
    QuantumEvolutionEngine.Call → Prop
  | .set_dimension dim => dim = s.m_dim ∨ (s.m_has_hamiltonian = false ∧ s.m_lindblads = [])
  | _ => True

/-- The states reachable from the constructor by calls that do not change the dimension
under registered operators. -/
inductive QuantumEvolutionEngine.ReachableKeepingDimension : QuantumEvolutionEngine → Prop where
  | new : ReachableKeepingDimension QuantumEvolutionEngine.new
  | call {s : QuantumEvolutionEngine} (c : QuantumEvolutionEngine.Call) :
      ReachableKeepingDimension s → s.KeepsDimension c → ReachableKeepingDimension (s.call c)

/-- An engine of dimension 2 with two Lindblad operators, registered in one order. -/
def exampleEngineAB : QuantumEvolutionEngine :=
  QuantumEvolutionEngine.run
    [.set_dimension 2, .add_lindblad_triplets [0, 1, 1, 0],
     .add_lindblad_triplets [1, 1, 2, 0], .finalize]

/-- The same engine with the two Lindblad operators registered in the other order. -/
def exampleEngineBA : QuantumEvolutionEngine :=
  QuantumEvolutionEngine.run
    [.set_dimension 2, .add_lindblad_triplets [1, 1, 2, 0],
     .add_lindblad_triplets [0, 1, 1, 0], .finalize]

/-! ## The solver wrapper -/

/-- The core solver class `QuantumSolverCPU` as the wrapper uses it: the constructor, the
field `get_metrics().hilbert_dim` and the public methods declared in
`quantum_solver_cpu.h`, over a solver state of type `S`.  The implementation of the class
is not among the sources, so the state and the methods are parameters; a method returns
the solver after the call together with its result. -/
structure QuantumSolverCPU (S : Type) where
  create : ℤ → S
  hilbert_dim : S → ℤ
  set_hamiltonian : S → Mat → S
  add_lindblad_operator : S → Mat → S
  clear_lindblad_operators : S → S
  evolve : S → Mat → ℚ → S × Mat
  evolve_unitary : S → Mat → ℚ → S × Mat
  evolve_lindblad : S → Mat → ℚ → S × Mat
  expectation_value : S → Mat → Mat → S × Cx
  purity : S → Mat → S × ℚ
  trace : S → Mat → S × Cx
  normalize : S → Mat → S × Mat
  set_pade_order : S → ℤ → S
  set_multithreading : S → Bool → S

/-- The assignment `A(i, j) = v`. -/
def Mat.set (A : Mat) (i j : ℕ) (v : Cx) : Mat :=
  ⟨A.rows, A.cols, fun a b => if a = i ∧ b = j then v else A.coeff a b⟩

/-- The private member of `QuantumSolverCPUNative`: the owned solver, `none` for
`nullptr`. -/
structure QuantumSolverCPUNative (S : Type) where
  solver : Option S

/-- What a call of a wrapper method does: the wrapper after the call, the returned value,
the number of elements read from the argument buffers, and the number of calls of
methods of the core solver. -/
structure Outcome (S R : Type) where
  self : QuantumSolverCPUNative S
  result : R
  reads : ℕ
  calls : ℕ

namespace QuantumSolverCPUNative

variable {S : Type}

/-- The constructor `QuantumSolverCPUNative()`. -/
def new : QuantumSolverCPUNative S := { solver := none }

/-- The unpacking loops that the methods of the wrapper repeat: the matrix starts as
`Zero(dim, dim)`, and entry `(i, j)` is read from `flat[idx++]`, `flat[idx++]`.  The
second component is the final `idx`, the number of elements read. -/
def unpack_flat (dim : ℤ) (flat : List ℚ) : Mat × ℕ :=
  (List.range dim.toNat).foldl (fun st i =>
    (List.range dim.toNat).foldl (fun st j =>
      let re := flat.getD st.2 0
      let im := flat.getD (st.2 + 1) 0
      (st.1.set i j ⟨re, im⟩, st.2 + 2)) st) (Mat.Zero dim.toNat dim.toNat, 0)

/-- The packing loops that the methods of the wrapper repeat: the real and the imaginary
part of each entry are pushed back in row-major order. -/
def pack_flat (dim : ℤ) (rho : Mat) : List ℚ :=
  (List.range dim.toNat).foldl (fun result i =>
    (List.range dim.toNat).foldl (fun result j =>
      (result ++ [(rho.coeff i j).re]) ++ [(rho.coeff i j).im]) result) []

/-- The method `initialize(hilbert_dim)`; `initialize` is reserved in Lean. -/
def initialise (c : QuantumSolverCPU S) (_w : QuantumSolverCPUNative S) (hilbert_dim : ℤ) :
    QuantumSolverCPUNative S :=
  { solver := some (c.create hilbert_dim) }

/-- The method `set_hamiltonian_flat(H_flat)`. -/
def set_hamiltonian_flat (c : QuantumSolverCPU S) (w : QuantumSolverCPUNative S)
    (H_flat : List ℚ) : Outcome S Unit :=
  match w.solver with
  | none => ⟨w, (), 0, 0⟩
  | some solver =>
    let dim := c.hilbert_dim solver
    if (H_flat.length : ℤ) ≠ 2 * dim * dim then ⟨w, (), 0, 0⟩
    else
      let H := unpack_flat dim H_flat
      ⟨⟨some (c.set_hamiltonian solver H.1)⟩, (), H.2, 1⟩

/-- The method `add_lindblad_operator(L_flat)`. -/
def add_lindblad_operator (c : QuantumSolverCPU S) (w : QuantumSolverCPUNative S)
    (L_flat : List ℚ) : Outcome S Unit :=
  match w.solver with
  | none => ⟨w, (), 0, 0⟩
  | some solver =>
    let dim := c.hilbert_dim solver
    if (L_flat.length : ℤ) ≠ 2 * dim * dim then ⟨w, (), 0, 0⟩
    else
      let L := unpack_flat dim L_flat
      ⟨⟨some (c.add_lindblad_operator solver L.1)⟩, (), L.2, 1⟩

/-- The method `clear_lindblad_operators()`. -/
def clear_lindblad_operators (c : QuantumSolverCPU S) (w : QuantumSolverCPUNative S) :
    Outcome S Unit :=
  match w.solver with
  | none => ⟨w, (), 0, 0⟩
  | some solver => ⟨⟨some (c.clear_lindblad_operators solver)⟩, (), 0, 1⟩

/-- The method `evolve(rho_flat, dt)`. -/
def evolve (c : QuantumSolverCPU S) (w : QuantumSolverCPUNative S) (rho_flat : List ℚ)
    (dt : ℚ) : Outcome S (List ℚ) :=
  match w.solver with
  | none => ⟨w, [], 0, 0⟩
  | some solver =>
    let dim := c.hilbert_dim solver
    if (rho_flat.length : ℤ) ≠ 2 * dim * dim then ⟨w, [], 0, 0⟩
    else
      let rho := unpack_flat dim rho_flat
      let r := c.evolve solver rho.1 dt
      ⟨⟨some r.1⟩, pack_flat dim r.2, rho.2, 1⟩

/-- The method `evolve_unitary(rho_flat, dt)`. -/
def evolve_unitary (c : QuantumSolverCPU S) (w : QuantumSolverCPUNative S)
    (rho_flat : List ℚ) (dt : ℚ) : Outcome S (List ℚ) :=
  match w.solver with
  | none => ⟨w, [], 0, 0⟩
  | some solver =>
    let dim := c.hilbert_dim solver
    if (rho_flat.length : ℤ) ≠ 2 * dim * dim then ⟨w, [], 0, 0⟩
    else
      let rho := unpack_flat dim rho_flat
      let r := c.evolve_unitary solver rho.1 dt
      ⟨⟨some r.1⟩, pack_flat dim r.2, rho.2, 1⟩

/-- The method `evolve_lindblad(rho_flat, dt)`. -/
def evolve_lindblad (c : QuantumSolverCPU S) (w : QuantumSolverCPUNative S)
    (rho_flat : List ℚ) (dt : ℚ) : Outcome S (List ℚ) :=
  match w.solver with
  | none => ⟨w, [], 0, 0⟩
  | some solver =>
    let dim := c.hilbert_dim solver
    if (rho_flat.length : ℤ) ≠ 2 * dim * dim then ⟨w, [], 0, 0⟩
    else
      let rho := unpack_flat dim rho_flat
      let r := c.evolve_lindblad solver rho.1 dt
      ⟨⟨some r.1⟩, pack_flat dim r.2, rho.2, 1⟩

/-- The method `expectation_value(O_flat, rho_flat)`. -/
def expectation_value (c : QuantumSolverCPU S) (w : QuantumSolverCPUNative S)
    (O_flat rho_flat : List ℚ) : Outcome S (List ℚ) :=
  match w.solver with
  | none => ⟨w, [0.0, 0.0], 0, 0⟩
  | some solver =>
    let dim := c.hilbert_dim solver
    let O := unpack_flat dim O_flat
    let rho := unpack_flat dim rho_flat
    let ev := c.expectation_value solver O.1 rho.1
    ⟨⟨some ev.1⟩, [ev.2.re, ev.2.im], O.2 + rho.2, 1⟩

/-- The method `purity(rho_flat)`. -/
def purity (c : QuantumSolverCPU S) (w : QuantumSolverCPUNative S) (rho_flat : List ℚ) :
    Outcome S ℚ :=
  match w.solver with
  | none => ⟨w, 0.0, 0, 0⟩
  | some solver =>
    let dim := c.hilbert_dim solver
    let rho := unpack_flat dim rho_flat
    let r := c.purity solver rho.1
    ⟨⟨some r.1⟩, r.2, rho.2, 1⟩

/-- The method `trace(rho_flat)`. -/
def trace (c : QuantumSolverCPU S) (w : QuantumSolverCPUNative S) (rho_flat : List ℚ) :
    Outcome S (List ℚ) :=
  match w.solver with
  | none => ⟨w, [0.0, 0.0], 0, 0⟩
  | some solver =>
    let dim := c.hilbert_dim solver
    let rho := unpack_flat dim rho_flat
    let tr := c.trace solver rho.1
    ⟨⟨some tr.1⟩, [tr.2.re, tr.2.im], rho.2, 1⟩

/-- The method `normalize(rho_flat)`. -/
def normalize (c : QuantumSolverCPU S) (w : QuantumSolverCPUNative S) (rho_flat : List ℚ) :
    Outcome S (List ℚ) :=
  match w.solver with
  | none => ⟨w, [], 0, 0⟩
  | some solver =>
    let dim := c.hilbert_dim solver
    let rho := unpack_flat dim rho_flat
    let r := c.normalize solver rho.1
    ⟨⟨some r.1⟩, pack_flat dim r.2, rho.2, 1⟩

/-- The method `set_pade_order(order)`. -/
def set_pade_order (c : QuantumSolverCPU S) (w : QuantumSolverCPUNative S) (order : ℤ) :
    Outcome S Unit :=
  match w.solver with
  | none => ⟨w, (), 0, 0⟩
  | some solver => ⟨⟨some (c.set_pade_order solver order)⟩, (), 0, 1⟩

/-- The method `set_multithreading(enabled)`. -/
def set_multithreading (c : QuantumSolverCPU S) (w : QuantumSolverCPUNative S)
    (enabled : Bool) : Outcome S Unit :=
  match w.solver with
  | none => ⟨w, (), 0, 0⟩
  | some solver => ⟨⟨some (c.set_multithreading solver enabled)⟩, (), 0, 1⟩

end QuantumSolverCPUNative

/-- A core solver for examples: its state is the dimension it was created with and the
number of method calls it has received; matrices come back unchanged and scalars are
zero. -/
def countingSolver : QuantumSolverCPU (ℤ × ℕ) where
  create := fun hilbert_dim => (hilbert_dim, 0)
  hilbert_dim := fun s => s.1
  set_hamiltonian := fun s _ => (s.1, s.2 + 1)
  add_lindblad_operator := fun s _ => (s.1, s.2 + 1)
  clear_lindblad_operators := fun s => (s.1, s.2 + 1)
  evolve := fun s rho _ => ((s.1, s.2 + 1), rho)
  evolve_unitary := fun s rho _ => ((s.1, s.2 + 1), rho)
  evolve_lindblad := fun s rho _ => ((s.1, s.2 + 1), rho)
  expectation_value := fun s _ _ => ((s.1, s.2 + 1), 0)
  purity := fun s _ => ((s.1, s.2 + 1), 0)
  trace := fun s _ => ((s.1, s.2 + 1), 0)
  normalize := fun s rho => ((s.1, s.2 + 1), rho)
  set_pade_order := fun s _ => (s.1, s.2 + 1)
  set_multithreading := fun s _ => (s.1, s.2 + 1)

/-- The wrappers on which `initialize()` has never been called: the constructed wrapper
and the wrapper left by any other method on such a wrapper. -/
inductive QuantumSolverCPUNative.NeverInitialised {S : Type} (c : QuantumSolverCPU S) :
    QuantumSolverCPUNative S → Prop where
  | new : NeverInitialised c QuantumSolverCPUNative.new
  | set_hamiltonian_flat {w : QuantumSolverCPUNative S} (H_flat : List ℚ) :
      NeverInitialised c w → NeverInitialised c (w.set_hamiltonian_flat c H_flat).self
  | add_lindblad_operator {w : QuantumSolverCPUNative S} (L_flat : List ℚ) :
      NeverInitialised c w → NeverInitialised c (w.add_lindblad_operator c L_flat).self
  | clear_lindblad_operators {w : QuantumSolverCPUNative S} :
      NeverInitialised c w → NeverInitialised c (w.clear_lindblad_operators c).self
  | evolve {w : QuantumSolverCPUNative S} (rho_flat : List ℚ) (dt : ℚ) :
      NeverInitialised c w → NeverInitialised c (w.evolve c rho_flat dt).self
  | evolve_unitary {w : QuantumSolverCPUNative S} (rho_flat : List ℚ) (dt : ℚ) :
      NeverInitialised c w → NeverInitialised c (w.evolve_unitary c rho_flat dt).self
  | evolve_lindblad {w : QuantumSolverCPUNative S} (rho_flat : List ℚ) (dt : ℚ) :
      NeverInitialised c w → NeverInitialised c (w.evolve_lindblad c rho_flat dt).self
  | expectation_value {w : QuantumSolverCPUNative S} (O_flat rho_flat : List ℚ) :
      NeverInitialised c w → NeverInitialised c (w.expectation_value c O_flat rho_flat).self
  | purity {w : QuantumSolverCPUNative S} (rho_flat : List ℚ) :
      NeverInitialised c w → NeverInitialised c (w.purity c rho_flat).self
  | trace {w : QuantumSolverCPUNative S} (rho_flat : List ℚ) :
      NeverInitialised c w → NeverInitialised c (w.trace c rho_flat).self
  | normalize {w : QuantumSolverCPUNative S} (rho_flat : List ℚ) :
      NeverInitialised c w → NeverInitialised c (w.normalize c rho_flat).self
  | set_pade_order {w : QuantumSolverCPUNative S} (order : ℤ) :
      NeverInitialised c w → NeverInitialised c (w.set_pade_order c order).self
  | set_multithreading {w : QuantumSolverCPUNative S} (enabled : Bool) :
      NeverInitialised c w → NeverInitialised c (w.set_multithreading c enabled).self

/-- The local `num_steps` of `evolve`: `static_cast<int>(std::ceil(dt / max_dt))`, the
quotient being a float. -/
def QuantumEvolutionEngine.num_steps (dt max_dt : ℚ) : ℤ :=
  to_int32 ⌈float_round (dt / max_dt)⌉

/-- The local `sub_dt` of `evolve`: the float `dt / num_steps`, after the conversion of
`num_steps` to float. -/
def QuantumEvolutionEngine.sub_dt (dt max_dt : ℚ) : ℚ :=
  float_round (dt / float_round (QuantumEvolutionEngine.num_steps dt max_dt : ℚ))

/-- The number of Euler updates that `evolve` runs on a finalized engine. -/
def QuantumEvolutionEngine.step_count (dt max_dt : ℚ) : ℕ :=
  if dt ≤ max_dt then 1 else (QuantumEvolutionEngine.num_steps dt max_dt).toNat

/-- The size of the Euler updates that `evolve` runs on a finalized engine. -/
def QuantumEvolutionEngine.step_size (dt max_dt : ℚ) : ℚ :=
  if dt ≤ max_dt then dt else QuantumEvolutionEngine.sub_dt dt max_dt

/-- The float operations of the subcycling branch of `evolve` are exact at `dt` and
`max_dt`: the quotient `dt / max_dt`, the conversion of its ceiling `n` to float, and the
quotient `dt / n` are all representable in binary32. -/
def ExactArithmetic (dt max_dt : ℚ) : Prop :=
  float_round (dt / max_dt) = dt / max_dt ∧
  float_round ((⌈dt / max_dt⌉ : ℤ) : ℚ) = ((⌈dt / max_dt⌉ : ℤ) : ℚ) ∧
  float_round (dt / ((⌈dt / max_dt⌉ : ℤ) : ℚ)) = dt / ((⌈dt / max_dt⌉ : ℤ) : ℚ)

instance (dt max_dt : ℚ) : Decidable (ExactArithmetic dt max_dt) := by
  unfold ExactArithmetic
  infer_instance

/-- The float `0.3f`. -/
def float_0_3 : ℚ := 5033165 / 2 ^ 24

/-- The float `0.1f`. -/
def float_0_1 : ℚ := 13421773 / 2 ^ 27

/-- The float `1e-10f`. -/
def float_1e_10 : ℚ := 14411519 / 2 ^ 57

/-! ## Lemmas: complex scalars -/

namespace Cx

@[simp] theorem zero_re : (0 : Cx).re = 0 := rfl
@[simp] theorem zero_im : (0 : Cx).im = 0 := rfl
@[simp] theorem one_re : (1 : Cx).re = 1 := rfl
@[simp] theorem one_im : (1 : Cx).im = 0 := rfl
@[simp] theorem add_re (a b : Cx) : (a + b).re = a.re + b.re := rfl
@[simp] theorem add_im (a b : Cx) : (a + b).im = a.im + b.im := rfl
@[simp] theorem neg_re (a : Cx) : (-a).re = -a.re := rfl
@[simp] theorem neg_im (a : Cx) : (-a).im = -a.im := rfl
@[simp] theorem sub_re (a b : Cx) : (a - b).re = a.re - b.re := rfl
@[simp] theorem sub_im (a b : Cx) : (a - b).im = a.im - b.im := rfl
@[simp] theorem mul_re (a b : Cx) : (a * b).re = a.re * b.re - a.im * b.im := rfl
@[simp] theorem mul_im (a b : Cx) : (a * b).im = a.re * b.im + a.im * b.re := rfl
@[simp] theorem star_re (a : Cx) : (star a).re = a.re := rfl
@[simp] theorem star_im (a : Cx) : (star a).im = -a.im := rfl
@[simp] theorem ofReal_re (x : ℚ) : (ofReal x).re = x := rfl
@[simp] theorem ofReal_im (x : ℚ) : (ofReal x).im = 0 := rfl
@[simp] theorem negI_re : negI.re = 0 := rfl
@[simp] theorem negI_im : negI.im = -1 := rfl

end Cx

/-! ## Lemmas: machine numbers -/

theorem round_half_even_nonpos {x : ℚ} (hx : x ≤ 0) : round_half_even x ≤ 0 := by
  have hf : ⌊x⌋ ≤ 0 := Int.floor_nonpos hx
  unfold round_half_even
  by_cases h0 : ⌊x⌋ = 0
  · have h : x - ((⌊x⌋ : ℤ) : ℚ) < 1 / 2 := by
      rw [h0, Int.cast_zero, sub_zero]
      linarith
    rw [if_pos h]
    exact hf
  · have h1 : ⌊x⌋ + 1 ≤ 0 := by omega
    split_ifs <;> assumption

theorem float_round_nonpos {x : ℚ} (hx : x ≤ 0) : float_round x ≤ 0 := by
  unfold float_round
  by_cases h0 : x = 0
  · rw [if_pos h0]
  · rw [if_neg h0]
    have hneg : ¬ 0 < x := not_lt.mpr hx
    have hulp : (0 : ℚ) ≤ 2 ^ (max (binary_exponent x) (-126) - 23) :=
      zpow_nonneg (by norm_num) _
    have hr : round_half_even (x / 2 ^ (max (binary_exponent x) (-126) - 23)) ≤ 0 :=
      round_half_even_nonpos (div_nonpos_of_nonpos_of_nonneg hx hulp)
    have hrq : ((round_half_even (x / 2 ^ (max (binary_exponent x) (-126) - 23)) : ℤ) : ℚ) ≤ 0 := by
      exact_mod_cast hr
    simp only []
    split_ifs
    · norm_num
    · exact mul_nonpos_of_nonpos_of_nonneg hrq hulp

theorem to_int32_nonpos {n : ℤ} (hn : n ≤ 0) : to_int32 n ≤ 0 := by
  unfold to_int32
  split_ifs
  · exact hn
  · norm_num

theorem to_int32_of_range {n : ℤ} (h0 : 0 ≤ n) (h1 : n ≤ 2 ^ 31 - 1) : to_int32 n = n := by
  unfold to_int32
  rw [if_pos ⟨by omega, h1⟩]

theorem float_round_two : float_round 2 = 2 := by decide!

/-- The rounding at some known binary32 values: `0.3f`, `0.1f`, `1e-10f`, the quotient
`0.3f / 0.1f`, a tie above `2^24`, the smallest subnormal, an underflow and an
overflow. -/
theorem float_round_examples :
    float_round (3 / 10) = float_0_3 ∧ float_round (1 / 10) = float_0_1 ∧
    float_round (1 / 10 ^ 10) = float_1e_10 ∧ float_round (float_0_3 / float_0_1) = 3 ∧
    float_round 16777217 = 16777216 ∧ float_round 16777219 = 16777220 ∧
    float_round (1 / 10 ^ 45) = 1 / 2 ^ 149 ∧ float_round (1 / 10 ^ 46) = 0 ∧
    float_round (2 ^ 128 - 2 ^ 103) = 2 ^ 128 ∧
    float_round (2 ^ 128 - 2 ^ 104) = 2 ^ 128 - 2 ^ 104 := by
  decide!

/-- The integer `round_half_even x` is within `1/2` of `x`. -/
theorem round_half_even_near (x : ℚ) : |(round_half_even x : ℚ) - x| ≤ 1 / 2 := by
  have h1 : ((⌊x⌋ : ℤ) : ℚ) ≤ x := Int.floor_le x
  have h2 : x < ((⌊x⌋ : ℤ) : ℚ) + 1 := Int.lt_floor_add_one x
  unfold round_half_even
  rw [abs_le]
  split_ifs with a b c
  · constructor <;> linarith
  · push_cast; constructor <;> linarith
  · have : x - ((⌊x⌋ : ℤ) : ℚ) = 1 / 2 := le_antisymm (not_lt.mp b) (not_lt.mp a)
    constructor <;> linarith
  · have : x - ((⌊x⌋ : ℤ) : ℚ) = 1 / 2 := le_antisymm (not_lt.mp b) (not_lt.mp a)
    push_cast; constructor <;> linarith

theorem bit_length_aux_bounds (fuel n : ℕ) (hn : 0 < n) (hf : n ≤ fuel) :
    2 ^ (bit_length_aux fuel n - 1) ≤ n ∧ n < 2 ^ bit_length_aux fuel n ∧
      0 < bit_length_aux fuel n := by
  induction fuel generalizing n with
  | zero => omega
  | succ fuel ih =>
    have hn0 : n ≠ 0 := by omega
    simp only [bit_length_aux, if_neg hn0, Nat.add_sub_cancel]
    by_cases h2 : n / 2 = 0
    · have h1 : n = 1 := by omega
      subst h1
      cases fuel <;> simp [bit_length_aux]
    · obtain ⟨a, b, c⟩ := ih (n / 2) (by omega) (by omega)
      refine ⟨?_, ?_, by omega⟩
      · have e : bit_length_aux fuel (n / 2) = (bit_length_aux fuel (n / 2) - 1) + 1 := by omega
        rw [e, pow_succ]
        omega
      · rw [pow_succ]
        omega

/-- A positive `n` has `bit_length n` binary digits: `2^(k-1) ≤ n < 2^k`. -/
theorem bit_length_bounds (n : ℕ) (hn : 0 < n) :
    2 ^ (bit_length n - 1) ≤ n ∧ n < 2 ^ bit_length n ∧ 0 < bit_length n :=
  bit_length_aux_bounds n n hn le_rfl

/-- The binary exponent `e` of `x ≠ 0` satisfies `2^e ≤ |x| < 2^(e+1)`. -/
theorem binary_exponent_bounds (x : ℚ) (hx : x ≠ 0) :
    (2 : ℚ) ^ binary_exponent x ≤ |x| ∧ |x| < 2 ^ (binary_exponent x + 1) := by
  have hp : 0 < x.num.natAbs := Int.natAbs_pos.mpr (Rat.num_ne_zero.mpr hx)
  have hq : 0 < x.den := x.den_pos
  obtain ⟨p1, p2, p3⟩ := bit_length_bounds _ hp
  obtain ⟨q1, q2, q3⟩ := bit_length_bounds _ hq
  have habs : |x| = (x.num.natAbs : ℚ) / (x.den : ℚ) := by
    conv_lhs => rw [← Rat.num_div_den x]
    rw [abs_div, Nat.abs_cast, Nat.cast_natAbs, Int.cast_abs]
  have hqpos : (0 : ℚ) < (x.den : ℚ) := by exact_mod_cast hq
  have two_pos : (0 : ℚ) < 2 := by norm_num
  set a := bit_length x.num.natAbs with ha
  set b := bit_length x.den with hb
  have P1 : (2 : ℚ) ^ (a - 1) ≤ (x.num.natAbs : ℚ) := by exact_mod_cast p1
  have P2 : (x.num.natAbs : ℚ) < 2 ^ a := by exact_mod_cast p2
  have Q1 : (2 : ℚ) ^ (b - 1) ≤ (x.den : ℚ) := by exact_mod_cast q1
  have Q2 : (x.den : ℚ) < 2 ^ b := by exact_mod_cast q2
  have ea : (2 : ℚ) ^ a = 2 ^ (a - 1) * 2 := by
    rw [← pow_succ]; congr 1; omega
  have eb : (2 : ℚ) ^ b = 2 ^ (b - 1) * 2 := by
    rw [← pow_succ]; congr 1; omega
  have hlow : (2 : ℚ) ^ ((a : ℤ) - (b : ℤ) - 1) < |x| := by
    rw [habs, lt_div_iff₀ hqpos]
    have e : (2 : ℚ) ^ ((a : ℤ) - (b : ℤ) - 1) = 2 ^ (a - 1) / 2 ^ b := by
      rw [← zpow_natCast, ← zpow_natCast, ← zpow_sub₀ two_pos.ne']
      congr 1
      omega
    rw [e, div_mul_eq_mul_div, div_lt_iff₀ (by positivity)]
    calc (2 : ℚ) ^ (a - 1) * (x.den : ℚ) < 2 ^ (a - 1) * 2 ^ b :=
          mul_lt_mul_of_pos_left Q2 (by positivity)
      _ ≤ (x.num.natAbs : ℚ) * 2 ^ b := mul_le_mul_of_nonneg_right P1 (by positivity)
  have hhigh : |x| < (2 : ℚ) ^ ((a : ℤ) - (b : ℤ) + 1) := by
    rw [habs, div_lt_iff₀ hqpos]
    have e : (2 : ℚ) ^ ((a : ℤ) - (b : ℤ) + 1) = 2 ^ a / 2 ^ (b - 1) := by
      rw [← zpow_natCast, ← zpow_natCast, ← zpow_sub₀ two_pos.ne']
      congr 1
      omega
    rw [e, div_mul_eq_mul_div, lt_div_iff₀ (by positivity)]
    calc (x.num.natAbs : ℚ) * 2 ^ (b - 1) < 2 ^ a * 2 ^ (b - 1) :=
          mul_lt_mul_of_pos_right P2 (by positivity)
      _ ≤ 2 ^ a * (x.den : ℚ) := mul_le_mul_of_nonneg_left Q1 (by positivity)
  unfold binary_exponent
  simp only [← ha, ← hb]
  split_ifs with h
  · refine ⟨hlow.le, ?_⟩
    rw [sub_add_cancel]
    exact h
  · exact ⟨not_lt.mp h, hhigh⟩

/-- A finite `float_round x` is a multiple of the unit in the last place of `x` and lies
within half a unit of `x`. -/
theorem float_round_near (x : ℚ) (hx : x ≠ 0) (hfin : |float_round x| < 2 ^ 128) :
    ∃ m : ℤ, float_round x = (m : ℚ) * 2 ^ (max (binary_exponent x) (-126) - 23) ∧
      |float_round x - x| ≤ 2 ^ (max (binary_exponent x) (-126) - 23) / 2 := by
  have hulp : (0 : ℚ) < 2 ^ (max (binary_exponent x) (-126) - 23) :=
    zpow_pos (by norm_num) _
  have hval : float_round x =
      (round_half_even (x / 2 ^ (max (binary_exponent x) (-126) - 23)) : ℚ) *
        2 ^ (max (binary_exponent x) (-126) - 23) := by
    by_contra hne
    apply absurd hfin
    unfold float_round at hne ⊢
    rw [if_neg hx] at hne ⊢
    simp only [] at hne ⊢
    by_cases hov : (2 : ℚ) ^ 128 ≤
        |(round_half_even (x / 2 ^ (max (binary_exponent x) (-126) - 23)) : ℚ) *
          2 ^ (max (binary_exponent x) (-126) - 23)|
    · rw [if_pos hov]
      split_ifs
      · rw [abs_of_pos (by positivity)]
        exact lt_irrefl _
      · rw [abs_neg, abs_of_pos (by positivity)]
        exact lt_irrefl _
    · rw [if_neg hov] at hne
      exact absurd rfl hne
  refine ⟨_, hval, ?_⟩
  rw [hval]
  have h := round_half_even_near (x / 2 ^ (max (binary_exponent x) (-126) - 23))
  have e : (round_half_even (x / 2 ^ (max (binary_exponent x) (-126) - 23)) : ℚ) *
        2 ^ (max (binary_exponent x) (-126) - 23) - x =
      ((round_half_even (x / 2 ^ (max (binary_exponent x) (-126) - 23)) : ℚ) -
        x / 2 ^ (max (binary_exponent x) (-126) - 23)) *
        2 ^ (max (binary_exponent x) (-126) - 23) := by
    field_simp
  rw [e, abs_mul, abs_of_pos hulp]
  calc _ ≤ 1 / 2 * 2 ^ (max (binary_exponent x) (-126) - 23) :=
        mul_le_mul_of_nonneg_right h hulp.le
    _ = _ := by ring

/-- The value `double_1e_15` has a 53-bit significand at the exponent `-102` and lies
within half a unit in the last place of `10^-15`. -/
theorem double_1e_15_nearest :
    double_1e_15 * 2 ^ 102 = 5070602400912918 ∧
    (2 : ℚ) ^ 52 ≤ 5070602400912918 ∧ (5070602400912918 : ℚ) < 2 ^ 53 ∧
    |double_1e_15 - 1 / 10 ^ 15| < 1 / 2 ^ 103 := by
  unfold double_1e_15
  refine ⟨by norm_num, by norm_num, by norm_num, ?_⟩
  rw [abs_lt]
  constructor <;> norm_num

theorem double_1e_15_gt : (1 : ℚ) / 10 ^ 15 < double_1e_15 := by
  unfold double_1e_15
  norm_num

/-! ## Lemmas: the flat buffer layout -/

namespace Layout



theorem getD_set_eq (l : List ℚ) (i p : ℕ) (v : ℚ) :
    (l.set i v).getD p 0 = if p = i ∧ i < l.length then v else l.getD p 0 := by
  simp only [List.getD_eq_getElem?_getD, List.getElem?_set]
  by_cases h : i = p
  · subst h
    by_cases h2 : i < l.length
    · simp [h2]
    · simp [h2, List.getElem?_eq_none (not_lt.mp h2)]
  · have : ¬ p = i := fun e => h e.symm
    simp [h, this]

theorem list_eq_of_getD {l₁ l₂ : List ℚ} (hl : l₁.length = l₂.length)
    (h : ∀ p, p < l₁.length → l₁.getD p 0 = l₂.getD p 0) : l₁ = l₂ := by
  apply List.ext_getElem hl
  intro n h₁ h₂
  have := h n h₁
  rwa [List.getD_eq_getElem _ _ h₁, List.getD_eq_getElem _ _ h₂] at this

theorem div_of_row_col {d i j : ℕ} (hj : j < d) : (i * d + j) / d = i := by
  apply Nat.div_eq_of_lt_le
  · exact Nat.le_add_right _ _
  · rw [Nat.succ_mul]; omega

theorem mod_of_row_col {d i j : ℕ} (hj : j < d) : (i * d + j) % d = j := by
  rw [Nat.add_comm, Nat.add_mul_mod_self_right, Nat.mod_eq_of_lt hj]

theorem packVal_even {d i j : ℕ} (mat : Mat) (hj : j < d) :
    packVal d mat ((i * d + j) * 2) = (mat.coeff i j).re := by
  have h1 : (i * d + j) * 2 % 2 = 0 := by omega
  have h2 : (i * d + j) * 2 / 2 = i * d + j := by omega
  simp only [packVal, h1, h2, div_of_row_col hj, mod_of_row_col hj, if_true]

theorem packVal_odd {d i j : ℕ} (mat : Mat) (hj : j < d) :
    packVal d mat ((i * d + j) * 2 + 1) = (mat.coeff i j).im := by
  have h1 : ¬ ((i * d + j) * 2 + 1) % 2 = 0 := by omega
  have h2 : ((i * d + j) * 2 + 1) / 2 = i * d + j := by omega
  simp only [packVal, h1, h2, div_of_row_col hj, mod_of_row_col hj, if_false]

theorem packRow_succ (d : ℕ) (mat : Mat) (i m : ℕ) (ptr : List ℚ) :
    packRow d mat i (m + 1) ptr =
      ((packRow d mat i m ptr).set ((i * d + m) * 2) (mat.coeff i m).re).set
        ((i * d + m) * 2 + 1) (mat.coeff i m).im := by
  simp [packRow, List.range_succ, List.foldl_append]

theorem packRows_succ (d : ℕ) (mat : Mat) (n : ℕ) (ptr : List ℚ) :
    packRows d mat (n + 1) ptr = packRow d mat n d (packRows d mat n ptr) := by
  simp [packRows, List.range_succ, List.foldl_append]

theorem packRow_length (d : ℕ) (mat : Mat) (i m : ℕ) (ptr : List ℚ) :
    (packRow d mat i m ptr).length = ptr.length := by
  induction m with
  | zero => simp [packRow]
  | succ m ih => rw [packRow_succ]; simp [ih]

theorem packRows_length (d : ℕ) (mat : Mat) (n : ℕ) (ptr : List ℚ) :
    (packRows d mat n ptr).length = ptr.length := by
  induction n with
  | zero => simp [packRows]
  | succ n ih => rw [packRows_succ, packRow_length, ih]

theorem packRow_getD (d : ℕ) (mat : Mat) (i m : ℕ) (hm : m ≤ d) (ptr : List ℚ) (p : ℕ) :
    (packRow d mat i m ptr).getD p 0 =
      if i * d * 2 ≤ p ∧ p < (i * d + m) * 2 ∧ p < ptr.length then packVal d mat p
      else ptr.getD p 0 := by
  induction m with
  | zero =>
    have : ¬ (i * d * 2 ≤ p ∧ p < (i * d + 0) * 2 ∧ p < ptr.length) := by omega
    simp only [packRow, List.range_zero, List.foldl_nil]
    rw [if_neg this]
  | succ m ih =>
    have hm1 : m < d := hm
    rw [packRow_succ, getD_set_eq, getD_set_eq, List.length_set, packRow_length,
      ih (Nat.le_of_lt hm1)]
    by_cases h1 : p = (i * d + m) * 2 + 1
    · subst h1
      by_cases hl : (i * d + m) * 2 + 1 < ptr.length
      · have c : i * d * 2 ≤ (i * d + m) * 2 + 1 ∧
            (i * d + m) * 2 + 1 < (i * d + (m + 1)) * 2 ∧
            (i * d + m) * 2 + 1 < ptr.length := by omega
        simp only [hl, and_self, if_true, c, packVal_odd mat hm1]
      · have c : ¬ (i * d * 2 ≤ (i * d + m) * 2 + 1 ∧
            (i * d + m) * 2 + 1 < (i * d + (m + 1)) * 2 ∧
            (i * d + m) * 2 + 1 < ptr.length) := by omega
        have c2 : ¬ (i * d * 2 ≤ (i * d + m) * 2 + 1 ∧
            (i * d + m) * 2 + 1 < (i * d + m) * 2 ∧
            (i * d + m) * 2 + 1 < ptr.length) := by omega
        have c3 : ¬ ((i * d + m) * 2 + 1 = (i * d + m) * 2 ∧
            (i * d + m) * 2 < ptr.length) := by omega
        simp only [hl, and_false, if_false, c, c2, c3]
    · by_cases h2 : p = (i * d + m) * 2
      · subst h2
        by_cases hl : (i * d + m) * 2 < ptr.length
        · have c : i * d * 2 ≤ (i * d + m) * 2 ∧
              (i * d + m) * 2 < (i * d + (m + 1)) * 2 ∧
              (i * d + m) * 2 < ptr.length := by omega
          simp only [h1, false_and, if_false, hl, and_self, if_true, c, packVal_even mat hm1]
        · have c : ¬ (i * d * 2 ≤ (i * d + m) * 2 ∧
              (i * d + m) * 2 < (i * d + (m + 1)) * 2 ∧
              (i * d + m) * 2 < ptr.length) := by omega
          have c2 : ¬ (i * d * 2 ≤ (i * d + m) * 2 ∧
              (i * d + m) * 2 < (i * d + m) * 2 ∧
              (i * d + m) * 2 < ptr.length) := by omega
          simp only [h1, false_and, if_false, hl, and_false, c, c2]
      · have e : (i * d * 2 ≤ p ∧ p < (i * d + (m + 1)) * 2 ∧ p < ptr.length) ↔
            (i * d * 2 ≤ p ∧ p < (i * d + m) * 2 ∧ p < ptr.length) := by omega
        simp only [h1, h2, false_and, if_false, e]

theorem packRows_getD (d : ℕ) (mat : Mat) (n : ℕ) (ptr : List ℚ) (p : ℕ) :
    (packRows d mat n ptr).getD p 0 =
      if p < n * d * 2 ∧ p < ptr.length then packVal d mat p else ptr.getD p 0 := by
  induction n with
  | zero => simp [packRows]
  | succ n ih =>
    rw [packRows_succ, packRow_getD d mat n d le_rfl, packRows_length, ih]
    have e : (n + 1) * d = n * d + d := Nat.succ_mul n d
    rw [e]
    split_ifs <;> first | rfl | (exfalso; omega)

end Layout


/-! ## Lemmas: `pack_dense` and `unpack_dense` -/

namespace QuantumEvolutionEngine

theorem pack_dense_eq_packRows (s : QuantumEvolutionEngine) (d : ℕ) (hd : s.m_dim = (d : ℤ))
    (mat : Mat) :
    s.pack_dense mat = Layout.packRows d mat d (List.replicate (d * d * 2) 0) := by
  have h1 : s.m_dim.toNat = d := by rw [hd]; exact Int.toNat_natCast d
  have h2 : (s.m_dim * s.m_dim * 2).toNat = d * d * 2 := by
    rw [hd]
    have : ((d : ℤ) * (d : ℤ) * 2) = ((d * d * 2 : ℕ) : ℤ) := by push_cast; ring
    rw [this, Int.toNat_natCast]
  simp only [pack_dense, h1, h2]
  rfl

theorem pack_dense_length (s : QuantumEvolutionEngine) (d : ℕ) (hd : s.m_dim = (d : ℤ))
    (mat : Mat) : (s.pack_dense mat).length = 2 * d * d := by
  rw [pack_dense_eq_packRows s d hd, Layout.packRows_length, List.length_replicate]
  ring

theorem pack_dense_getD (s : QuantumEvolutionEngine) (d : ℕ) (hd : s.m_dim = (d : ℤ))
    (mat : Mat) (p : ℕ) (hp : p < 2 * d * d) :
    (s.pack_dense mat).getD p 0 = Layout.packVal d mat p := by
  rw [pack_dense_eq_packRows s d hd, Layout.packRows_getD, List.length_replicate]
  have : p < d * d * 2 ∧ p < d * d * 2 := by
    have : d * d * 2 = 2 * d * d := by ring
    omega
  rw [if_pos this]

theorem index_lt {d i j : ℕ} (hi : i < d) (hj : j < d) : 2 * (i * d + j) + 1 < 2 * d * d := by
  have h1 : (i + 1) * d ≤ d * d := Nat.mul_le_mul_right d hi
  rw [Nat.succ_mul] at h1
  have h2 : 2 * d * d = 2 * (d * d) := by ring
  omega

theorem bufferMatrix_pack_dense (s : QuantumEvolutionEngine) (d : ℕ)
    (hd : s.m_dim = (d : ℤ)) (mat : Mat) :
    bufferMatrix d (s.pack_dense mat) = mat.toMatrix d := by
  ext i j
  · have hlt := index_lt i.isLt j.isLt
    have e : 2 * ((i : ℕ) * d + (j : ℕ)) = ((i : ℕ) * d + (j : ℕ)) * 2 := by ring
    simp only [bufferMatrix, Mat.toMatrix, Matrix.of_apply]
    rw [pack_dense_getD s d hd mat _ (by omega), e, Layout.packVal_even mat j.isLt]
  · have hlt := index_lt i.isLt j.isLt
    have e : 2 * ((i : ℕ) * d + (j : ℕ)) + 1 = ((i : ℕ) * d + (j : ℕ)) * 2 + 1 := by ring
    simp only [bufferMatrix, Mat.toMatrix, Matrix.of_apply]
    rw [pack_dense_getD s d hd mat _ hlt, e, Layout.packVal_odd mat j.isLt]

theorem toMatrix_unpack_dense (s : QuantumEvolutionEngine) (d : ℕ)
    (hd : s.m_dim = (d : ℤ)) (data : List ℚ) :
    (s.unpack_dense data).toMatrix d = bufferMatrix d data := by
  have h1 : s.m_dim.toNat = d := by rw [hd]; exact Int.toNat_natCast d
  ext i j <;>
    simp only [bufferMatrix, Mat.toMatrix, Matrix.of_apply, unpack_dense, h1,
      Nat.mul_comm _ 2]

theorem unpack_dense_rows (s : QuantumEvolutionEngine) (d : ℕ) (hd : s.m_dim = (d : ℤ))
    (data : List ℚ) : (s.unpack_dense data).rows = d := by
  show s.m_dim.toNat = d
  rw [hd]; exact Int.toNat_natCast d

theorem unpack_dense_cols (s : QuantumEvolutionEngine) (d : ℕ) (hd : s.m_dim = (d : ℤ))
    (data : List ℚ) : (s.unpack_dense data).cols = d := by
  show s.m_dim.toNat = d
  rw [hd]; exact Int.toNat_natCast d

theorem pack_dense_congr (s : QuantumEvolutionEngine) (d : ℕ) (hd : s.m_dim = (d : ℤ))
    (A B : Mat) (h : A.toMatrix d = B.toMatrix d) : s.pack_dense A = s.pack_dense B := by
  apply Layout.list_eq_of_getD
  · rw [pack_dense_length s d hd, pack_dense_length s d hd]
  · intro p hp
    rw [pack_dense_length s d hd] at hp
    rw [pack_dense_getD s d hd A p hp, pack_dense_getD s d hd B p hp]
    have hd0 : 0 < d := by
      rcases Nat.eq_zero_or_pos d with h0 | h0
      · subst h0; simp at hp
      · exact h0
    have hq : p / 2 < d * d := by
      have : 2 * d * d = 2 * (d * d) := by ring
      omega
    have hi : p / 2 / d < d := Nat.div_lt_of_lt_mul hq
    have hj : p / 2 % d < d := Nat.mod_lt _ hd0
    have e : A.coeff (p / 2 / d) (p / 2 % d) = B.coeff (p / 2 / d) (p / 2 % d) :=
      congrFun (congrFun h ⟨_, hi⟩) ⟨_, hj⟩
    simp only [Layout.packVal, e]

/-- Packing the unpacked buffer gives the buffer back, for a buffer of length
`2 d d`. -/
theorem pack_dense_unpack_dense (s : QuantumEvolutionEngine) (d : ℕ)
    (hd : s.m_dim = (d : ℤ)) (data : List ℚ) (hlen : data.length = 2 * d * d) :
    s.pack_dense (s.unpack_dense data) = data := by
  have h1 : s.m_dim.toNat = d := by rw [hd]; exact Int.toNat_natCast d
  apply Layout.list_eq_of_getD
  · rw [pack_dense_length s d hd, hlen]
  · intro p hp
    rw [pack_dense_length s d hd] at hp
    rw [pack_dense_getD s d hd _ p hp]
    have e1 : p / 2 / d * d + p / 2 % d = p / 2 := Nat.div_add_mod' _ _
    by_cases hpar : p % 2 = 0
    · have e2 : (p / 2 / d * d + p / 2 % d) * 2 = p := by rw [e1]; omega
      simp only [Layout.packVal, hpar, if_true, unpack_dense, h1, e2]
    · have e2 : (p / 2 / d * d + p / 2 % d) * 2 + 1 = p := by rw [e1]; omega
      simp only [Layout.packVal, hpar, if_false, unpack_dense, h1, e2]

/-- Two buffers of length `2 d d` that denote the same matrix are equal. -/
theorem buffer_ext (d : ℕ) (l₁ l₂ : List ℚ) (h₁ : l₁.length = 2 * d * d)
    (h₂ : l₂.length = 2 * d * d) (h : bufferMatrix d l₁ = bufferMatrix d l₂) : l₁ = l₂ := by
  let s : QuantumEvolutionEngine := { QuantumEvolutionEngine.new with m_dim := (d : ℤ) }
  have hd : s.m_dim = (d : ℤ) := rfl
  rw [← pack_dense_unpack_dense s d hd l₁ h₁, ← pack_dense_unpack_dense s d hd l₂ h₂]
  apply pack_dense_congr s d hd
  rw [toMatrix_unpack_dense s d hd, toMatrix_unpack_dense s d hd, h]

end QuantumEvolutionEngine

/-! ## Lemmas: matrix operations -/

namespace Mat

@[simp] theorem toMatrix_Zero (d r c : ℕ) : (Mat.Zero r c).toMatrix d = 0 := by
  ext i j <;> rfl

@[simp] theorem toMatrix_add (d : ℕ) (A B : Mat) :
    (A.add B).toMatrix d = A.toMatrix d + B.toMatrix d := by
  ext i j <;> rfl

@[simp] theorem toMatrix_sub (d : ℕ) (A B : Mat) :
    (A.sub B).toMatrix d = A.toMatrix d - B.toMatrix d := by
  ext i j <;> rfl

@[simp] theorem toMatrix_smul (d : ℕ) (c : Cx) (A : Mat) :
    (Mat.smul c A).toMatrix d = c • A.toMatrix d := by
  ext i j <;> rfl

@[simp] theorem toMatrix_adjoint (d : ℕ) (A : Mat) :
    A.adjoint.toMatrix d = (A.toMatrix d).conjTranspose := by
  ext i j <;> rfl

theorem toMatrix_mul (d : ℕ) (A B : Mat) (h : A.cols = d) :
    (A.mul B).toMatrix d = A.toMatrix d * B.toMatrix d := by
  subst h
  apply Matrix.ext
  intro i j
  simp only [toMatrix, mul, Matrix.of_apply, Matrix.mul_apply]
  exact Finset.sum_range fun k => A.coeff i k * B.coeff k j

@[simp] theorem add_rows (A B : Mat) : (A.add B).rows = A.rows := rfl
@[simp] theorem add_cols (A B : Mat) : (A.add B).cols = A.cols := rfl
@[simp] theorem smul_rows (c : Cx) (A : Mat) : (Mat.smul c A).rows = A.rows := rfl
@[simp] theorem smul_cols (c : Cx) (A : Mat) : (Mat.smul c A).cols = A.cols := rfl
@[simp] theorem mul_rows (A B : Mat) : (A.mul B).rows = A.rows := rfl
@[simp] theorem mul_cols (A B : Mat) : (A.mul B).cols = B.cols := rfl
@[simp] theorem adjoint_rows (A : Mat) : A.adjoint.rows = A.cols := rfl
@[simp] theorem adjoint_cols (A : Mat) : A.adjoint.cols = A.rows := rfl

theorem toMatrix_dissipatorTerm (d : ℕ) (rho L : Mat) (hr : rho.cols = d)
    (hL : L.rows = d ∧ L.cols = d) :
    (rho.dissipatorTerm L).toMatrix d = dissipator (L.toMatrix d) (rho.toMatrix d) := by
  have half : (0.5 : ℚ) = 1 / 2 := by norm_num
  simp only [dissipatorTerm, dissipator, toMatrix_sub, toMatrix_smul, toMatrix_add,
    toMatrix_mul d (L.mul rho) L.adjoint (by simpa using hr),
    toMatrix_mul d L rho hL.2,
    toMatrix_mul d (L.adjoint.mul L) rho (by simpa using hL.2),
    toMatrix_mul d L.adjoint L (by simpa using hL.1),
    toMatrix_mul d rho (L.adjoint.mul L) hr, toMatrix_adjoint, half, Matrix.mul_assoc]

theorem toMatrix_foldl_add (d : ℕ) (term : ℕ → Mat) (init : Mat) (n : ℕ) :
    ((List.range n).foldl (fun acc k => acc.add (term k)) init).toMatrix d =
      init.toMatrix d + Finset.sum (Finset.range n) fun k => (term k).toMatrix d := by
  induction n with
  | zero => simp
  | succ n ih =>
    rw [List.range_succ, List.foldl_append, Finset.sum_range_succ]
    simp only [List.foldl_cons, List.foldl_nil, toMatrix_add, ih, add_assoc]

end Mat

theorem sum_range_getD {α M : Type} [AddCommMonoid M] (l : List α) (dflt : α) (F : α → M) :
    (Finset.sum (Finset.range l.length) fun k => F (l.getD k dflt)) = (l.map F).sum := by
  induction l with
  | nil => simp
  | cons a l ih =>
    rw [List.length_cons, Finset.sum_range_succ']
    simp only [List.getD_cons_succ, List.getD_cons_zero, List.map_cons, List.sum_cons, ih]
    exact add_comm _ _

theorem foldl_range_eq_iterate {α : Type} (f : α → α) (a : α) (n : ℕ) :
    (List.range n).foldl (fun r _ => f r) a = f^[n] a := by
  induction n with
  | zero => rfl
  | succ n ih =>
    rw [List.range_succ, List.foldl_append, Function.iterate_succ_apply']
    simp only [List.foldl_cons, List.foldl_nil, ih]

/-! ## Lemmas: the engine -/

namespace QuantumEvolutionEngine

theorem finalize_fold (ls : List Mat) (c : List Mat × List Mat) :
    ls.foldl (fun c L =>
      let L_dag := L.adjoint
      let LdagL := L_dag.mul L
      (c.1 ++ [L_dag], c.2 ++ [LdagL])) c =
    (c.1 ++ ls.map Mat.adjoint, c.2 ++ ls.map fun L => L.adjoint.mul L) := by
  induction ls generalizing c with
  | nil => simp
  | cons L ls ih => simp [ih]

theorem finalize_cachesFresh (s : QuantumEvolutionEngine) : s.finalize.CachesFresh := by
  simp only [CachesFresh, finalize, finalize_fold, List.nil_append, and_self]

/-- The invariant of the finalized flag: while it is set, the caches are fresh. -/
theorem reachable_cachesFresh {s : QuantumEvolutionEngine} (h : Reachable s) :
    s.m_finalized = true → s.CachesFresh := by
  induction h with
  | new => intro h; exact absurd h (by decide)
  | @call s c _ ih =>
    cases c with
    | set_dimension dim => intro h; exact absurd h (by simp [call, set_dimension])
    | set_hamiltonian H =>
      intro h
      by_cases hd : s.m_dim = 0
      · simp only [call, set_hamiltonian, hd, if_true] at h ⊢
        exact ih h
      · simp [call, set_hamiltonian, hd] at h
    | add_lindblad_triplets t =>
      intro h
      by_cases hd : s.m_dim = 0
      · simp only [call, add_lindblad_triplets, hd, if_true] at h ⊢
        exact ih h
      · simp [call, add_lindblad_triplets, hd] at h
    | clear_operators => intro h; exact absurd h (by simp [call, clear_operators])
    | finalize => intro _; exact finalize_cachesFresh s
    | evolve_step rho dt => exact ih
    | evolve rho dt max_dt => exact ih

theorem evolve_step_eq (s : QuantumEvolutionEngine) (rho_data : List ℚ) (dt : ℚ)
    (hfin : s.m_finalized = true) :
    s.evolve_step rho_data dt = s.pack_dense (s.euler dt (s.unpack_dense rho_data)) := by
  simp only [evolve_step, hfin, Bool.not_true, Bool.false_eq_true, if_false]
  rfl

theorem evolve_eq (s : QuantumEvolutionEngine) (rho_data : List ℚ) (dt max_dt : ℚ)
    (hfin : s.m_finalized = true) (hdt : ¬ dt ≤ max_dt) :
    s.evolve rho_data dt max_dt =
      s.pack_dense ((s.euler (sub_dt dt max_dt))^[(num_steps dt max_dt).toNat]
        (s.unpack_dense rho_data)) := by
  simp only [evolve, hfin, Bool.not_true, Bool.false_eq_true, if_false, hdt]
  rw [← foldl_range_eq_iterate]
  rfl

theorem drho_cols (s : QuantumEvolutionEngine) (rho : Mat) :
    (s.drho rho).cols = s.m_dim.toNat := by
  unfold drho
  generalize s.m_lindblads.length = n
  induction n with
  | zero => by_cases h : s.m_has_hamiltonian <;> simp [h, Mat.Zero]
  | succ n ih =>
    rw [List.range_succ, List.foldl_append]
    simpa using ih

theorem euler_cols (s : QuantumEvolutionEngine) (dt : ℚ) (rho : Mat) :
    (s.euler dt rho).cols = rho.cols := rfl

theorem toMatrix_drho (s : QuantumEvolutionEngine) (d : ℕ) (hs : s.Sized d)
    (hc : s.CachesFresh) (rho : Mat) (hr : rho.cols = d) :
    (s.drho rho).toMatrix d =
      masterEquation (s.hamiltonian? d) (s.lindblads d) (rho.toMatrix d) := by
  obtain ⟨_, hH, hL⟩ := hs
  obtain ⟨hc1, hc2⟩ := hc
  have hterm : ∀ k ∈ Finset.range s.m_lindblads.length,
      ((((s.m_lindblads.getD k Mat.empty).mul rho).mul
          (s.m_lindblad_dags.getD k Mat.empty)).sub
        (Mat.smul (Cx.ofReal 0.5) (((s.m_LdagLs.getD k Mat.empty).mul rho).add
          (rho.mul (s.m_LdagLs.getD k Mat.empty))))).toMatrix d =
      dissipator ((s.m_lindblads.getD k Mat.empty).toMatrix d) (rho.toMatrix d) := by
    intro k hk
    have hk := Finset.mem_range.mp hk
    have e1 : s.m_lindblad_dags.getD k Mat.empty =
        (s.m_lindblads.getD k Mat.empty).adjoint := by
      rw [hc1]
      simp [List.getD_eq_getElem?_getD, List.getElem?_map, List.getElem?_eq_getElem hk]
    have e2 : s.m_LdagLs.getD k Mat.empty =
        (s.m_lindblads.getD k Mat.empty).adjoint.mul (s.m_lindblads.getD k Mat.empty) := by
      rw [hc2]
      simp [List.getD_eq_getElem?_getD, List.getElem?_map, List.getElem?_eq_getElem hk]
    have hmem : s.m_lindblads.getD k Mat.empty ∈ s.m_lindblads := by
      rw [List.getD_eq_getElem _ _ hk]
      exact List.getElem_mem hk
    rw [e1, e2]
    exact Mat.toMatrix_dissipatorTerm d rho _ hr (hL _ hmem)
  unfold drho
  simp only []
  rw [Mat.toMatrix_foldl_add, Finset.sum_congr rfl hterm,
    sum_range_getD s.m_lindblads Mat.empty fun L => dissipator (L.toMatrix d) (rho.toMatrix d)]
  unfold masterEquation hamiltonian? lindblads
  rw [List.map_map]
  congr 1
  by_cases h : s.m_has_hamiltonian = true
  · simp only [h, if_true, Mat.toMatrix_add, Mat.toMatrix_Zero, zero_add, Mat.toMatrix_smul,
      Mat.toMatrix_sub, Mat.toMatrix_mul d _ _ (hH h).2, Mat.toMatrix_mul d _ _ hr]
  · simp only [h, if_false, Mat.toMatrix_Zero, Bool.false_eq_true]

theorem toMatrix_euler (s : QuantumEvolutionEngine) (d : ℕ) (hs : s.Sized d)
    (hc : s.CachesFresh) (dt : ℚ) (rho : Mat) (hr : rho.cols = d) :
    (s.euler dt rho).toMatrix d =
      eulerUpdate (s.hamiltonian? d) (s.lindblads d) dt (rho.toMatrix d) := by
  simp only [euler, eulerUpdate, Mat.toMatrix_add, Mat.toMatrix_smul,
    toMatrix_drho s d hs hc rho hr]

end QuantumEvolutionEngine

namespace QuantumEvolutionEngine

theorem reachable_run (calls : List Call) : Reachable (run calls) := by
  have h : ∀ (cs : List Call) (s : QuantumEvolutionEngine), Reachable s →
      Reachable (cs.foldl call s) := by
    intro cs
    induction cs with
    | nil => intro s hs; exact hs
    | cons c cs ih => intro s hs; exact ih _ (Reachable.call c hs)
  exact h calls _ Reachable.new

theorem evolve_step_packing (s : QuantumEvolutionEngine) (d : ℕ) (hs : s.Sized d)
    (hc : s.CachesFresh) (hfin : s.m_finalized = true) (rho_data : List ℚ) (dt : ℚ) :
    IsPackingOf d (s.evolve_step rho_data dt)
      (eulerUpdate (s.hamiltonian? d) (s.lindblads d) dt (bufferMatrix d rho_data)) := by
  rw [evolve_step_eq s rho_data dt hfin]
  refine ⟨pack_dense_length s d hs.1 _, ?_⟩
  rw [bufferMatrix_pack_dense s d hs.1,
    toMatrix_euler s d hs hc dt _ (unpack_dense_cols s d hs.1 rho_data),
    toMatrix_unpack_dense s d hs.1]

theorem finalize_sized (s : QuantumEvolutionEngine) (d : ℕ) (hs : s.Sized d) :
    s.finalize.Sized d := hs

theorem add_lindblad_triplets_sized (s : QuantumEvolutionEngine) (d : ℕ) (hs : s.Sized d)
    (triplets : List ℚ) : (s.add_lindblad_triplets triplets).Sized d := by
  by_cases h0 : s.m_dim = 0
  · simpa [add_lindblad_triplets, h0] using hs
  · obtain ⟨h1, h2, h3⟩ := hs
    have ht : s.m_dim.toNat = d := by rw [h1]; exact Int.toNat_natCast d
    refine ⟨?_, ?_, ?_⟩
    · simpa [add_lindblad_triplets, h0] using h1
    · simpa [add_lindblad_triplets, h0] using h2
    · intro L hL
      simp only [add_lindblad_triplets, h0, if_false, List.mem_append,
        List.mem_singleton] at hL
      rcases hL with hL | hL
      · exact h3 L hL
      · subst hL
        exact ⟨ht, ht⟩

end QuantumEvolutionEngine

namespace QuantumEvolutionEngine

theorem iterate_euler_cols (s : QuantumEvolutionEngine) (h : ℚ) (n : ℕ) (X : Mat) :
    ((s.euler h)^[n] X).cols = X.cols := by
  induction n generalizing X with
  | zero => rfl
  | succ n ih => rw [Function.iterate_succ_apply, ih, euler_cols]

theorem toMatrix_iterate_euler (s : QuantumEvolutionEngine) (d : ℕ) (hs : s.Sized d)
    (hc : s.CachesFresh) (h : ℚ) (n : ℕ) (X : Mat) (hX : X.cols = d) :
    ((s.euler h)^[n] X).toMatrix d =
      (eulerUpdate (s.hamiltonian? d) (s.lindblads d) h)^[n] (X.toMatrix d) := by
  induction n generalizing X with
  | zero => rfl
  | succ n ih =>
    rw [Function.iterate_succ_apply, Function.iterate_succ_apply,
      ih _ ((euler_cols s h X).trans hX), toMatrix_euler s d hs hc h X hX]

/-- The call `evolve` as Euler updates on the unpacked matrix, packed once. -/
theorem evolve_eq_iterate_euler (s : QuantumEvolutionEngine) (rho_data : List ℚ)
    (dt max_dt : ℚ) (hfin : s.m_finalized = true) :
    s.evolve rho_data dt max_dt =
      s.pack_dense ((s.euler (step_size dt max_dt))^[step_count dt max_dt]
        (s.unpack_dense rho_data)) := by
  by_cases hdt : dt ≤ max_dt
  · have e : s.evolve rho_data dt max_dt = s.evolve_step rho_data dt := by
      simp [evolve, hfin, hdt]
    rw [e, evolve_step_eq s rho_data dt hfin]
    simp [step_count, step_size, hdt]
  · rw [evolve_eq s rho_data dt max_dt hfin hdt]
    simp only [step_count, step_size, hdt, if_false]

/-- Successive calls of `evolve_step` as Euler updates on the unpacked matrix, packed
once. -/
theorem iterate_evolve_step (s : QuantumEvolutionEngine) (d : ℕ) (hs : s.Sized d)
    (hc : s.CachesFresh) (hfin : s.m_finalized = true) (h : ℚ) (n : ℕ)
    (rho_data : List ℚ) (hlen : rho_data.length = 2 * d * d) :
    (fun r => s.evolve_step r h)^[n] rho_data =
      s.pack_dense ((s.euler h)^[n] (s.unpack_dense rho_data)) := by
  induction n with
  | zero => exact (pack_dense_unpack_dense s d hs.1 rho_data hlen).symm
  | succ n ih =>
    rw [Function.iterate_succ_apply', Function.iterate_succ_apply', ih,
      evolve_step_eq s _ h hfin]
    apply pack_dense_congr s d hs.1
    have c1 : ((s.euler h)^[n] (s.unpack_dense rho_data)).cols = d :=
      (iterate_euler_cols s h n _).trans (unpack_dense_cols s d hs.1 rho_data)
    rw [toMatrix_euler s d hs hc h _ (unpack_dense_cols s d hs.1 _),
      toMatrix_euler s d hs hc h _ c1, toMatrix_unpack_dense s d hs.1,
      bufferMatrix_pack_dense s d hs.1]

theorem evolve_packing (s : QuantumEvolutionEngine) (d : ℕ) (hs : s.Sized d)
    (hc : s.CachesFresh) (hfin : s.m_finalized = true) (rho_data : List ℚ)
    (dt max_dt : ℚ) :
    IsPackingOf d (s.evolve rho_data dt max_dt)
      ((eulerUpdate (s.hamiltonian? d) (s.lindblads d)
          (step_size dt max_dt))^[step_count dt max_dt]
        (bufferMatrix d rho_data)) := by
  rw [evolve_eq_iterate_euler s rho_data dt max_dt hfin]
  refine ⟨pack_dense_length s d hs.1 _, ?_⟩
  rw [bufferMatrix_pack_dense s d hs.1,
    toMatrix_iterate_euler s d hs hc _ _ _ (unpack_dense_cols s d hs.1 rho_data),
    toMatrix_unpack_dense s d hs.1]

theorem add_lindblad_triplets_lindblads (s : QuantumEvolutionEngine) (d : ℕ)
    (hd : s.m_dim = (d : ℤ)) (hd0 : d ≠ 0) (triplets : List ℚ) :
    (s.add_lindblad_triplets triplets).m_lindblads =
      s.m_lindblads ++ [setFromTriplets d d (parse_triplets triplets)] := by
  have h0 : ¬ s.m_dim = 0 := by rw [hd]; exact_mod_cast hd0
  have ht : s.m_dim.toNat = d := by rw [hd]; exact Int.toNat_natCast d
  simp only [add_lindblad_triplets, h0, if_false, ht]

end QuantumEvolutionEngine

/-! ## Lemmas: the master equation -/

theorem Cx.half_add_self (t : Cx) : Cx.ofReal (1 / 2) * (t + t) = t := by
  ext <;> simp <;> ring

theorem Cx.star_ofReal (x : ℚ) : star (Cx.ofReal x) = Cx.ofReal x := by
  ext <;> simp

theorem trace_dissipator {d : ℕ} (L ρ : CMatrix d) : (dissipator L ρ).trace = 0 := by
  have h1 : (L * ρ * L.conjTranspose).trace = (L.conjTranspose * L * ρ).trace :=
    Matrix.trace_mul_cycle L ρ L.conjTranspose
  have h2 : (ρ * L.conjTranspose * L).trace = (L.conjTranspose * L * ρ).trace := by
    rw [Matrix.trace_mul_cycle ρ L.conjTranspose L, h1]
  unfold dissipator
  rw [Matrix.trace_sub, Matrix.trace_smul, Matrix.trace_add, h1, h2, smul_eq_mul,
    Cx.half_add_self, sub_self]

theorem trace_masterEquation {d : ℕ} (H : Option (CMatrix d)) (Ls : List (CMatrix d))
    (ρ : CMatrix d) : (masterEquation H Ls ρ).trace = 0 := by
  have hsum : ((Ls.map fun L => dissipator L ρ).sum).trace = 0 := by
    induction Ls with
    | nil => simp
    | cons L Ls ih =>
      rw [List.map_cons, List.sum_cons, Matrix.trace_add, trace_dissipator, ih, add_zero]
  unfold masterEquation
  rw [Matrix.trace_add, hsum, add_zero]
  cases H with
  | none => exact Matrix.trace_zero _ _
  | some H =>
    show (Cx.negI • (H * ρ - ρ * H)).trace = 0
    rw [Matrix.trace_smul, Matrix.trace_sub, Matrix.trace_mul_comm H ρ, sub_self, smul_zero]

theorem trace_eulerUpdate {d : ℕ} (H : Option (CMatrix d)) (Ls : List (CMatrix d)) (dt : ℚ)
    (ρ : CMatrix d) : (eulerUpdate H Ls dt ρ).trace = ρ.trace := by
  unfold eulerUpdate
  rw [Matrix.trace_add, Matrix.trace_smul, trace_masterEquation, smul_zero, add_zero]

theorem trace_iterate_eulerUpdate {d : ℕ} (H : Option (CMatrix d)) (Ls : List (CMatrix d))
    (dt : ℚ) (n : ℕ) (ρ : CMatrix d) : ((eulerUpdate H Ls dt)^[n] ρ).trace = ρ.trace := by
  induction n generalizing ρ with
  | zero => rfl
  | succ n ih => rw [Function.iterate_succ_apply, ih, trace_eulerUpdate]

theorem isHermitian_dissipator {d : ℕ} (L ρ : CMatrix d) (hρ : ρ.IsHermitian) :
    (dissipator L ρ).IsHermitian := by
  unfold Matrix.IsHermitian at hρ ⊢
  unfold dissipator
  simp only [Matrix.conjTranspose_sub, Matrix.conjTranspose_smul, Matrix.conjTranspose_add,
    Matrix.conjTranspose_mul, Matrix.conjTranspose_conjTranspose, hρ, Cx.star_ofReal,
    Matrix.mul_assoc]
  rw [add_comm]

theorem isHermitian_masterEquation {d : ℕ} (H : Option (CMatrix d)) (Ls : List (CMatrix d))
    (ρ : CMatrix d) (hH : ∀ M ∈ H, M.IsHermitian) (hρ : ρ.IsHermitian) :
    (masterEquation H Ls ρ).IsHermitian := by
  have hsum : ((Ls.map fun L => dissipator L ρ).sum).IsHermitian := by
    induction Ls with
    | nil => simp
    | cons L Ls ih =>
      rw [List.map_cons, List.sum_cons]
      exact (isHermitian_dissipator L ρ hρ).add ih
  unfold masterEquation
  refine Matrix.IsHermitian.add ?_ hsum
  cases H with
  | none => exact Matrix.isHermitian_zero
  | some H =>
    have hH' : H.conjTranspose = H := hH H rfl
    have hρ' : ρ.conjTranspose = ρ := hρ
    have hI : star Cx.negI = -Cx.negI := by ext <;> simp
    show (Cx.negI • (H * ρ - ρ * H)).conjTranspose = Cx.negI • (H * ρ - ρ * H)
    rw [Matrix.conjTranspose_smul, Matrix.conjTranspose_sub, Matrix.conjTranspose_mul,
      Matrix.conjTranspose_mul, hH', hρ', hI, neg_smul, ← smul_neg, neg_sub]

theorem isHermitian_eulerUpdate {d : ℕ} (H : Option (CMatrix d)) (Ls : List (CMatrix d))
    (dt : ℚ) (ρ : CMatrix d) (hH : ∀ M ∈ H, M.IsHermitian) (hρ : ρ.IsHermitian) :
    (eulerUpdate H Ls dt ρ).IsHermitian := by
  unfold eulerUpdate
  refine Matrix.IsHermitian.add hρ ?_
  have h := isHermitian_masterEquation H Ls ρ hH hρ
  unfold Matrix.IsHermitian at h ⊢
  rw [Matrix.conjTranspose_smul, h, Cx.star_ofReal]

theorem isHermitian_iterate_eulerUpdate {d : ℕ} (H : Option (CMatrix d))
    (Ls : List (CMatrix d)) (dt : ℚ) (n : ℕ) (ρ : CMatrix d) (hH : ∀ M ∈ H, M.IsHermitian)
    (hρ : ρ.IsHermitian) : ((eulerUpdate H Ls dt)^[n] ρ).IsHermitian := by
  induction n generalizing ρ with
  | zero => exact hρ
  | succ n ih =>
    rw [Function.iterate_succ_apply]
    exact ih _ (isHermitian_eulerUpdate H Ls dt ρ hH hρ)

theorem eulerUpdate_of_commute {d : ℕ} (H : Option (CMatrix d)) (dt : ℚ) (ρ : CMatrix d)
    (hH : ∀ M ∈ H, M * ρ = ρ * M) : eulerUpdate H [] dt ρ = ρ := by
  unfold eulerUpdate masterEquation
  cases H with
  | none => simp
  | some H =>
    have := hH H rfl
    simp [this]

/-! ## Lemmas: sparse ingestion -/

theorem foldl_append_if {α β : Type} (p : α → Prop) [DecidablePred p] (f : α → β)
    (l : List α) (acc : List β) :
    l.foldl (fun acc a => if p a then acc ++ [f a] else acc) acc =
      acc ++ (l.filter fun a => p a).map f := by
  induction l generalizing acc with
  | nil => simp
  | cons a l ih =>
    rw [List.foldl_cons, ih, List.filter_cons]
    by_cases h : p a <;> simp [h]

theorem parse_triplets_eq (t : List ℚ) :
    QuantumEvolutionEngine.parse_triplets t =
      (retainedTuples t).map fun k => ⟨tupleRow t k, tupleCol t k, tupleValue t k⟩ := by
  have h := foldl_append_if
    (fun i : ℕ => |t.getD (i * 4 + 2) 0| > double_1e_15 ∨ |t.getD (i * 4 + 3) 0| > double_1e_15)
    (fun i : ℕ => (⟨toInt (t.getD (i * 4) 0), toInt (t.getD (i * 4 + 1) 0),
      ⟨t.getD (i * 4 + 2) 0, t.getD (i * 4 + 3) 0⟩⟩ : Triplet))
    (List.range (t.length / 4)) []
  have hp : ∀ i : ℕ,
      decide (|t.getD (i * 4 + 2) 0| > double_1e_15 ∨ |t.getD (i * 4 + 3) 0| > double_1e_15) =
        decide (¬ tupleDropped t i) := by
    intro i
    apply decide_eq_decide.mpr
    unfold tupleDropped
    rw [not_and_or, not_le, not_le]
  unfold QuantumEvolutionEngine.parse_triplets retainedTuples
  rw [List.nil_append] at h
  simp only [hp] at h
  exact h

theorem setFromTriplets_parse_coeff (r c : ℕ) (t : List ℚ) (i j : ℕ) :
    (setFromTriplets r c (QuantumEvolutionEngine.parse_triplets t)).coeff i j =
      (((retainedTuples t).filter fun k =>
        tupleRow t k = (i : ℤ) ∧ tupleCol t k = (j : ℤ)).map (tupleValue t)).sum := by
  simp only [setFromTriplets, parse_triplets_eq, List.filter_map, List.map_map]
  rfl

theorem sum_map_filter_eq_single {M : Type} [AddCommMonoid M] (l : List ℕ) (hl : l.Nodup)
    (p : ℕ → Prop) [DecidablePred p] (f : ℕ → M) (k₀ : ℕ) (hk : k₀ ∈ l) (hp : p k₀)
    (huniq : ∀ k ∈ l, p k → k = k₀) : ((l.filter fun k => p k).map f).sum = f k₀ := by
  induction l with
  | nil => simp at hk
  | cons a l ih =>
    rw [List.nodup_cons] at hl
    rw [List.filter_cons]
    by_cases ha : a = k₀
    · subst ha
      have hrest : l.filter (fun k => p k) = [] := by
        rw [List.filter_eq_nil_iff]
        intro k hkl hpk
        have := huniq k (List.mem_cons_of_mem _ hkl) (by simpa using hpk)
        subst this
        exact hl.1 hkl
      simp [hp, hrest]
    · have hpa : ¬ p a := fun h => ha (huniq a (List.mem_cons_self _ _) h)
      have hk' : k₀ ∈ l := by
        rcases List.mem_cons.mp hk with h | h
        · exact absurd h.symm ha
        · exact h
      simp only [hpa, decide_False, Bool.false_eq_true, if_false]
      exact ih hl.2 hk' fun k hkl hpk => huniq k (List.mem_cons_of_mem _ hkl) hpk

theorem retainedTuples_nodup (t : List ℚ) : (retainedTuples t).Nodup :=
  (List.nodup_range _).filter _

theorem mem_retainedTuples (t : List ℚ) (k : ℕ) :
    k ∈ retainedTuples t ↔ k < t.length / 4 ∧ ¬ tupleDropped t k := by
  simp [retainedTuples]

/-! ## Lemmas: the substep count of `evolve` -/

namespace QuantumEvolutionEngine

theorem two_le_ceil (dt max_dt : ℚ) (hmax : 0 < max_dt) (hdt : max_dt < dt) :
    (2 : ℤ) ≤ ⌈dt / max_dt⌉ := by
  have h1 : ((1 : ℤ) : ℚ) < dt / max_dt := by
    rw [Int.cast_one, lt_div_iff₀ hmax, one_mul]
    exact hdt
  have h2 : (1 : ℤ) < ⌈dt / max_dt⌉ := Int.lt_ceil.mpr h1
  omega

theorem num_steps_of_exact (dt max_dt : ℚ) (hmax : 0 < max_dt) (hdt : max_dt < dt)
    (hbound : ⌈dt / max_dt⌉ ≤ 2 ^ 31 - 1) (hexact : ExactArithmetic dt max_dt) :
    num_steps dt max_dt = ⌈dt / max_dt⌉ := by
  have h2 := two_le_ceil dt max_dt hmax hdt
  unfold num_steps
  rw [hexact.1]
  exact to_int32_of_range (by omega) hbound

theorem sub_dt_of_exact (dt max_dt : ℚ) (hmax : 0 < max_dt) (hdt : max_dt < dt)
    (hbound : ⌈dt / max_dt⌉ ≤ 2 ^ 31 - 1) (hexact : ExactArithmetic dt max_dt) :
    sub_dt dt max_dt = dt / ((⌈dt / max_dt⌉ : ℤ) : ℚ) := by
  unfold sub_dt
  rw [num_steps_of_exact dt max_dt hmax hdt hbound hexact, hexact.2.1, hexact.2.2]

theorem step_count_of_exact (dt max_dt : ℚ) (hmax : 0 < max_dt)
    (hbound : ⌈dt / max_dt⌉ ≤ 2 ^ 31 - 1) (hexact : ExactArithmetic dt max_dt) :
    step_count dt max_dt = substepCount dt max_dt := by
  by_cases h : dt ≤ max_dt
  · simp only [step_count, substepCount, h, if_true]
  · simp only [step_count, substepCount, h, if_false]
    rw [num_steps_of_exact dt max_dt hmax (not_le.mp h) hbound hexact]

theorem step_size_of_exact (dt max_dt : ℚ) (hmax : 0 < max_dt)
    (hbound : ⌈dt / max_dt⌉ ≤ 2 ^ 31 - 1) (hexact : ExactArithmetic dt max_dt) :
    step_size dt max_dt = dt / ((substepCount dt max_dt : ℕ) : ℚ) := by
  by_cases h : dt ≤ max_dt
  · simp only [step_size, substepCount, h, if_true, Nat.cast_one, div_one]
  · have h2 := two_le_ceil dt max_dt hmax (not_le.mp h)
    have e : ((substepCount dt max_dt : ℕ) : ℤ) = ⌈dt / max_dt⌉ := by
      simp only [substepCount, h, if_false]
      exact Int.toNat_of_nonneg (by omega)
    have e' : ((substepCount dt max_dt : ℕ) : ℚ) = ((⌈dt / max_dt⌉ : ℤ) : ℚ) := by
      rw [← e]
      norm_cast
    simp only [step_size, h, if_false]
    rw [sub_dt_of_exact dt max_dt hmax (not_le.mp h) hbound hexact, e']

theorem num_steps_double (max_dt : ℚ) (hmax : 0 < max_dt) :
    num_steps (2 * max_dt) max_dt = 2 := by
  have h2 : 2 * max_dt / max_dt = 2 := by field_simp
  have h3 : ⌈float_round 2⌉ = 2 := by
    rw [float_round_two]
    exact Int.ceil_eq_iff.mpr ⟨by norm_num, by norm_num⟩
  unfold num_steps
  rw [h2, h3]
  decide

theorem sub_dt_double (max_dt : ℚ) (hmax : 0 < max_dt) (hfloat : float_round max_dt = max_dt) :
    sub_dt (2 * max_dt) max_dt = max_dt := by
  have h2 : 2 * max_dt / 2 = max_dt := by ring
  unfold sub_dt
  rw [num_steps_double max_dt hmax]
  norm_num
  rw [float_round_two, h2, hfloat]

theorem num_steps_nonpos (dt max_dt : ℚ) (hmax : max_dt < 0) (hdt : 0 ≤ dt) :
    num_steps dt max_dt ≤ 0 := by
  have h1 : float_round (dt / max_dt) ≤ ((0 : ℤ) : ℚ) := by
    rw [Int.cast_zero]
    exact float_round_nonpos (div_nonpos_of_nonneg_of_nonpos hdt hmax.le)
  exact to_int32_nonpos (Int.ceil_le.mpr h1)

end QuantumEvolutionEngine

/-! ## The claims -/

open QuantumEvolutionEngine

/-- C1. In every state reachable from the constructor by calls of `set_dimension`,
`set_hamiltonian`, `add_lindblad_triplets`, `clear_operators`, `finalize`, `evolve_step`
and `evolve`, if `is_finalized()` is true then both caches have the length of the
operator list and, at every index `k`, the cached adjoint is the adjoint of the `k`-th
operator and the cached product is that adjoint times the `k`-th operator. -/
theorem C1_finalized_caches_fresh (s : QuantumEvolutionEngine) (hreach : Reachable s)
    (hfin : s.is_finalized = true) :
    s.m_lindblad_dags.length = s.m_lindblads.length ∧
    s.m_LdagLs.length = s.m_lindblads.length ∧
    ∀ (k : ℕ) (hk : k < s.m_lindblads.length),
      s.m_lindblad_dags[k]? = some (s.m_lindblads[k]).adjoint ∧
      s.m_LdagLs[k]? = some ((s.m_lindblads[k]).adjoint.mul (s.m_lindblads[k])) := by
  obtain ⟨h1, h2⟩ := reachable_cachesFresh hreach hfin
  refine ⟨by rw [h1, List.length_map], by rw [h2, List.length_map], ?_⟩
  intro k hk
  rw [h1, h2]
  simp [List.getElem?_map, List.getElem?_eq_getElem hk]

/-- C1, at an engine of dimension 2 with one operator registered and then finalized. -/
theorem C1_finalized_caches_fresh_witness :
    (run [.set_dimension 2, .add_lindblad_triplets [0, 1, 1, 0], .finalize]).is_finalized
        = true ∧
    (run [.set_dimension 2, .add_lindblad_triplets [0, 1, 1, 0], .finalize]).m_lindblad_dags.length
        = 1 :=
  ⟨rfl, (C1_finalized_caches_fresh
    (run [.set_dimension 2, .add_lindblad_triplets [0, 1, 1, 0], .finalize])
    (reachable_run _) rfl).1.trans rfl⟩

/-- C2, as stated, fails: on a finalized engine whose dimension is unset, `set_hamiltonian`
and `add_lindblad_triplets` return early and `is_finalized()` stays true. -/
theorem C2_counterexample :
    QuantumEvolutionEngine.new.finalize.is_finalized = true ∧
    (QuantumEvolutionEngine.new.finalize.set_hamiltonian []).is_finalized = true ∧
    (QuantumEvolutionEngine.new.finalize.add_lindblad_triplets [0, 0, 1, 0]).is_finalized
      = true :=
  ⟨rfl, rfl, rfl⟩

/-- C2, amended. `set_dimension` and `clear_operators` always clear the finalized flag;
`set_hamiltonian` and `add_lindblad_triplets` clear it whenever the dimension is set
(`get_dimension() ≠ 0`). -/
theorem C2_setup_clears_finalized (s : QuantumEvolutionEngine) (dim : ℤ)
    (H_packed triplets : List ℚ) :
    (s.set_dimension dim).is_finalized = false ∧
    s.clear_operators.is_finalized = false ∧
    (s.get_dimension ≠ 0 →
      (s.set_hamiltonian H_packed).is_finalized = false ∧
      (s.add_lindblad_triplets triplets).is_finalized = false) := by
  refine ⟨rfl, rfl, ?_⟩
  intro h
  have h0 : ¬ s.m_dim = 0 := h
  simp [set_hamiltonian, add_lindblad_triplets, h0, is_finalized]

/-- C2 amended, at a finalized engine of dimension 2. -/
theorem C2_setup_clears_finalized_witness :
    (QuantumEvolutionEngine.new.set_dimension 2).finalize.is_finalized = true ∧
    ((QuantumEvolutionEngine.new.set_dimension 2).finalize.set_hamiltonian
        [0, 0, 0, 0, 0, 0, 1, 0]).is_finalized = false ∧
    ((QuantumEvolutionEngine.new.set_dimension 2).finalize.add_lindblad_triplets
        [0, 1, 1, 0]).is_finalized = false :=
  ⟨rfl, (C2_setup_clears_finalized (QuantumEvolutionEngine.new.set_dimension 2).finalize 0
    [0, 0, 0, 0, 0, 0, 1, 0] [0, 1, 1, 0]).2.2 (by decide)⟩

/-- C3. On an engine with `is_finalized()` false, for every input array and every `dt`
and `max_dt`, `evolve_step` and `evolve` return the input array, and the engine after
either call is the engine before it. -/
theorem C3_unfinalized_returns_input (s : QuantumEvolutionEngine) (rho_data : List ℚ)
    (dt max_dt : ℚ) (h : s.is_finalized = false) :
    s.evolve_step rho_data dt = rho_data ∧
    s.evolve rho_data dt max_dt = rho_data ∧
    s.call (.evolve_step rho_data dt) = s ∧
    s.call (.evolve rho_data dt max_dt) = s := by
  have h' : s.m_finalized = false := h
  refine ⟨?_, ?_, rfl, rfl⟩
  · simp [evolve_step, h']
  · simp [evolve, h']

/-- C3, at an engine of dimension 2 with a Hamiltonian set and not finalized. -/
theorem C3_unfinalized_returns_input_witness :
    (run [.set_dimension 2, .set_hamiltonian [0, 0, 0, 0, 0, 0, 1, 0]]).evolve_step
        [1, 0, 0, 0, 0, 0, 0, 0] (1 / 100) = [1, 0, 0, 0, 0, 0, 0, 0] :=
  (C3_unfinalized_returns_input
    (run [.set_dimension 2, .set_hamiltonian [0, 0, 0, 0, 0, 0, 1, 0]])
    [1, 0, 0, 0, 0, 0, 0, 0] (1 / 100) 1 rfl).1

/-- C4, as stated, fails: on a finalized engine whose dimension is unset,
`add_lindblad_triplets` returns early, the engine stays finalized, and `evolve_step` and
`evolve` return the packing of the empty matrix instead of the input. -/
theorem C4_counterexample :
    QuantumEvolutionEngine.new.finalize.is_finalized = true ∧
    (QuantumEvolutionEngine.new.finalize.add_lindblad_triplets [0, 0, 1, 0]).evolve_step
      [1, 0] 1 = [] ∧
    (QuantumEvolutionEngine.new.finalize.add_lindblad_triplets [0, 0, 1, 0]).evolve
      [1, 0] 1 1 = [] := by
  decide!

/-- C4, amended. Starting from an engine whose dimension is set (`get_dimension() ≠ 0`),
finalized in particular, for every triplet list and every input: after
`add_lindblad_triplets(t)`, `evolve_step` and `evolve` return the input unmodified; and
after a subsequent `finalize()`, when the dimension is `d`, the registered operators are
`d`-by-`d` and the input has length `2 d d`, `evolve_step` returns the packing of the
Euler update of the master equation with the new operator appended to the operator list,
and `evolve` returns the packing of the Euler updates that it runs, with that operator
list. -/
theorem C4_invalidate_then_refinalize (s : QuantumEvolutionEngine) (triplets : List ℚ)
    (hdim : s.get_dimension ≠ 0) :
    (∀ (rho_data : List ℚ) (dt max_dt : ℚ),
      (s.add_lindblad_triplets triplets).evolve_step rho_data dt = rho_data ∧
      (s.add_lindblad_triplets triplets).evolve rho_data dt max_dt = rho_data) ∧
    (∀ (d : ℕ) (rho_data : List ℚ) (dt max_dt : ℚ), s.Sized d →
      rho_data.length = 2 * d * d →
      IsPackingOf d ((s.add_lindblad_triplets triplets).finalize.evolve_step rho_data dt)
        (eulerUpdate (s.hamiltonian? d)
          (s.lindblads d ++ [(setFromTriplets d d (parse_triplets triplets)).toMatrix d])
          dt (bufferMatrix d rho_data)) ∧
      IsPackingOf d ((s.add_lindblad_triplets triplets).finalize.evolve rho_data dt max_dt)
        ((eulerUpdate (s.hamiltonian? d)
            (s.lindblads d ++ [(setFromTriplets d d (parse_triplets triplets)).toMatrix d])
            (step_size dt max_dt))^[step_count dt max_dt]
          (bufferMatrix d rho_data))) := by
  have h0 : ¬ s.m_dim = 0 := hdim
  have hnf : (s.add_lindblad_triplets triplets).m_finalized = false := by
    simp [add_lindblad_triplets, h0]
  constructor
  · intro rho_data dt max_dt
    constructor
    · simp [evolve_step, hnf]
    · simp [evolve, hnf]
  · intro d rho_data dt max_dt hs _
    have hd0 : d ≠ 0 := by
      intro hd
      apply h0
      rw [hs.1, hd]
      rfl
    have hs' : (s.add_lindblad_triplets triplets).finalize.Sized d :=
      finalize_sized _ d (add_lindblad_triplets_sized s d hs triplets)
    have hH : (s.add_lindblad_triplets triplets).finalize.hamiltonian? d =
        s.hamiltonian? d := by
      simp [hamiltonian?, finalize, add_lindblad_triplets, h0]
    have hL : (s.add_lindblad_triplets triplets).finalize.lindblads d =
        s.lindblads d ++ [(setFromTriplets d d (parse_triplets triplets)).toMatrix d] := by
      have := add_lindblad_triplets_lindblads s d hs.1 hd0 triplets
      simp only [lindblads, finalize, this, List.map_append, List.map_cons, List.map_nil]
    rw [← hH, ← hL]
    exact ⟨evolve_step_packing _ d hs' (finalize_cachesFresh _) rfl rho_data dt,
      evolve_packing _ d hs' (finalize_cachesFresh _) rfl rho_data dt max_dt⟩

/-- C4 amended, at the finalized engine of dimension 2 with Hamiltonian `diag(0, 1)`
(`exampleHamiltonianEngine.is_finalized = true`), adding the operator with the single entry `1` at `(0, 1)`: before the second
`finalize()` the input comes back, after it the array is an Euler update. -/
theorem C4_invalidate_then_refinalize_witness :
    exampleHamiltonianEngine.is_finalized = true ∧
    (exampleHamiltonianEngine.add_lindblad_triplets [0, 1, 1, 0]).evolve_step
      examplePlus (1 / 2) = examplePlus ∧
    IsPackingOf 2
      ((exampleHamiltonianEngine.add_lindblad_triplets [0, 1, 1, 0]).finalize.evolve_step
        examplePlus (1 / 2))
      (eulerUpdate (exampleHamiltonianEngine.hamiltonian? 2)
        (exampleHamiltonianEngine.lindblads 2 ++
          [(setFromTriplets 2 2 (parse_triplets [0, 1, 1, 0])).toMatrix 2])
        (1 / 2) (bufferMatrix 2 examplePlus)) :=
  ⟨rfl,
   ((C4_invalidate_then_refinalize exampleHamiltonianEngine [0, 1, 1, 0]
      (by decide)).1 examplePlus (1 / 2) 1).1,
   ((C4_invalidate_then_refinalize exampleHamiltonianEngine [0, 1, 1, 0]
      (by decide)).2 2 examplePlus (1 / 2) 1 (by decide) rfl).1⟩

/-- C5. For a finalized engine of dimension `d` whose Hamiltonian (if any) and Lindblad
operators are `d`-by-`d`, a buffer `rho_data` of length `2 d d` denoting the matrix `ρ`,
and every `dt`, `evolve_step` returns the packing of
`ρ + dt (−i (H ρ − ρ H) + Σ_k (L_k ρ L_k† − ½ (L_k† L_k ρ + ρ L_k† L_k)))`, the
Hamiltonian term being absent when no Hamiltonian is registered. -/
theorem C5_evolve_step_master_equation (s : QuantumEvolutionEngine) (d : ℕ)
    (rho_data : List ℚ) (dt : ℚ) (hreach : Reachable s) (hfin : s.is_finalized = true)
    (hs : s.Sized d) (hlen : rho_data.length = 2 * d * d) :
    IsPackingOf d (s.evolve_step rho_data dt)
      (eulerUpdate (s.hamiltonian? d) (s.lindblads d) dt (bufferMatrix d rho_data)) :=
  evolve_step_packing s d hs (reachable_cachesFresh hreach hfin) hfin rho_data dt

/-- C5, at the example engine, the matrix with all entries `1/2` and `dt = 1/2`. -/
theorem C5_evolve_step_master_equation_witness :
    IsPackingOf 2 (exampleEngine.evolve_step examplePlus (1 / 2))
      (eulerUpdate (exampleEngine.hamiltonian? 2) (exampleEngine.lindblads 2) (1 / 2)
        (bufferMatrix 2 examplePlus)) ∧
    exampleEngine.evolve_step examplePlus (1 / 2) =
      [3 / 4, 0, 3 / 8, 1 / 4, 3 / 8, -1 / 4, 1 / 4, 0] :=
  ⟨C5_evolve_step_master_equation exampleEngine 2 examplePlus (1 / 2)
    (QuantumEvolutionEngine.reachable_run _) rfl (by decide) rfl, by decide!⟩


/-- C6, as stated, fails: at the floats `dt = 0.3f` and `max_dt = 0.1f` the exact
quotient lies just above 3, so `ceil(dt / max_dt) = 4`; but the float quotient is `3.0`,
`evolve` runs 3 updates of size `0.1f`, and its result is not that of 4 successive calls
of `evolve_step` with step `dt / 4`. -/
theorem C6_counterexample :
    exampleEngine.is_finalized = true ∧ (0 : ℚ) < float_0_1 ∧
    float_round float_0_3 = float_0_3 ∧ float_round float_0_1 = float_0_1 ∧
    substepCount float_0_3 float_0_1 = 4 ∧
    step_count float_0_3 float_0_1 = 3 ∧ step_size float_0_3 float_0_1 = float_0_1 ∧
    exampleEngine.evolve examplePlus float_0_3 float_0_1 ≠
      (fun r => exampleEngine.evolve_step r
        (float_0_3 / (substepCount float_0_3 float_0_1 : ℕ)))^[substepCount float_0_3 float_0_1]
        examplePlus := by
  decide!

/-- C6, amended. For a finalized engine whose operators have the engine's dimension `d`,
an input of length `2 d d` and `max_dt > 0`, `evolve(rho, dt, max_dt)` equals `n`
successive calls of `evolve_step` with step `h`, where `n = 1` and `h = dt` if
`dt ≤ max_dt`, and otherwise `n` is the `int` to which the ceiling of the float quotient
`dt / max_dt` converts and `h` is the float quotient `dt / n`; when `ceil(dt / max_dt)`
fits an `int` and the float operations of `evolve` are exact at `dt` and `max_dt`,
`n = ceil(dt / max_dt)` and `h = dt / n`; in particular, for a float `max_dt` with
`2 max_dt` finite, `evolve(rho, 2 max_dt, max_dt)` equals
`evolve_step(evolve_step(rho, max_dt), max_dt)`. -/
theorem C6_subcycling_equivalence (s : QuantumEvolutionEngine) (d : ℕ) (rho_data : List ℚ)
    (dt max_dt : ℚ) (hreach : Reachable s) (hfin : s.is_finalized = true) (hs : s.Sized d)
    (hlen : rho_data.length = 2 * d * d) (hmax : 0 < max_dt) :
    s.evolve rho_data dt max_dt =
      (fun r => s.evolve_step r (step_size dt max_dt))^[step_count dt max_dt] rho_data ∧
    (⌈dt / max_dt⌉ ≤ 2 ^ 31 - 1 → ExactArithmetic dt max_dt →
      step_count dt max_dt = substepCount dt max_dt ∧
      step_size dt max_dt = dt / (substepCount dt max_dt : ℕ) ∧
      s.evolve rho_data dt max_dt =
        (fun r => s.evolve_step r (dt / (substepCount dt max_dt : ℕ)))^[substepCount dt max_dt]
          rho_data) ∧
    (float_round max_dt = max_dt → 2 * max_dt < 2 ^ 128 →
      s.evolve rho_data (2 * max_dt) max_dt =
        s.evolve_step (s.evolve_step rho_data max_dt) max_dt) := by
  have hc := reachable_cachesFresh hreach hfin
  have key : ∀ dt : ℚ, s.evolve rho_data dt max_dt =
      (fun r => s.evolve_step r (step_size dt max_dt))^[step_count dt max_dt] rho_data := by
    intro dt
    rw [iterate_evolve_step s d hs hc hfin _ _ rho_data hlen]
    exact evolve_eq_iterate_euler s rho_data dt max_dt hfin
  refine ⟨key dt, ?_, ?_⟩
  · intro hbound hexact
    have e1 := step_count_of_exact dt max_dt hmax hbound hexact
    have e2 := step_size_of_exact dt max_dt hmax hbound hexact
    refine ⟨e1, e2, ?_⟩
    rw [key dt, e1, e2]
  · intro hfloat _
    have hnle : ¬ 2 * max_dt ≤ max_dt := by linarith
    have e1 : step_count (2 * max_dt) max_dt = 2 := by
      simp only [step_count, hnle, if_false, num_steps_double max_dt hmax]
      rfl
    have e2 : step_size (2 * max_dt) max_dt = max_dt := by
      simp only [step_size, hnle, if_false, sub_dt_double max_dt hmax hfloat]
    rw [key (2 * max_dt), e1, e2]
    rfl

/-- C6 amended, at the example engine, the matrix with all entries `1/2`, `dt = 1` and
`max_dt = 1/2`: two substeps of size `1/2`; and at `dt = 0.3f`, `max_dt = 0.1f`, three
substeps of size `0.1f`. -/
theorem C6_subcycling_equivalence_witness :
    exampleEngine.evolve examplePlus (2 * (1 / 2)) (1 / 2) =
      exampleEngine.evolve_step (exampleEngine.evolve_step examplePlus (1 / 2)) (1 / 2) ∧
    exampleEngine.evolve examplePlus float_0_3 float_0_1 =
      (fun r => exampleEngine.evolve_step r (step_size float_0_3 float_0_1))^[step_count
        float_0_3 float_0_1] examplePlus :=
  ⟨(C6_subcycling_equivalence exampleEngine 2 examplePlus 1 (1 / 2)
      (QuantumEvolutionEngine.reachable_run _) rfl (by decide) rfl (by norm_num)).2.2
      (by decide!) (by norm_num),
   (C6_subcycling_equivalence exampleEngine 2 examplePlus float_0_3 float_0_1
      (QuantumEvolutionEngine.reachable_run _) rfl (by decide) rfl (by decide!)).1⟩

/-- C7. For a finalized engine of dimension `d` with a `d`-by-`d` Hamiltonian and no
Lindblad operators, an input of length `2 d d`, every `dt` and every `max_dt > 0`, the
trace of the matrix returned by `evolve` and by `evolve_step` equals the trace of the
input matrix, hence lies within every tolerance of it. -/
theorem C7_trace_preserved_hamiltonian_only (s : QuantumEvolutionEngine) (d : ℕ)
    (rho_data : List ℚ) (dt max_dt : ℚ) (hreach : Reachable s)
    (hfin : s.is_finalized = true) (hs : s.Sized d) (hH : s.m_has_hamiltonian = true)
    (hL : s.get_lindblad_count = 0) (hlen : rho_data.length = 2 * d * d)
    (hmax : 0 < max_dt) :
    (bufferMatrix d (s.evolve rho_data dt max_dt)).trace = (bufferMatrix d rho_data).trace ∧
    (bufferMatrix d (s.evolve_step rho_data dt)).trace = (bufferMatrix d rho_data).trace ∧
    ∀ tol : ℚ, 0 < tol →
      |((bufferMatrix d (s.evolve rho_data dt max_dt)).trace -
          (bufferMatrix d rho_data).trace).re| < tol ∧
      |((bufferMatrix d (s.evolve rho_data dt max_dt)).trace -
          (bufferMatrix d rho_data).trace).im| < tol := by
  have hc := reachable_cachesFresh hreach hfin
  have h1 : (bufferMatrix d (s.evolve rho_data dt max_dt)).trace =
      (bufferMatrix d rho_data).trace := by
    rw [(evolve_packing s d hs hc hfin rho_data dt max_dt).2,
      trace_iterate_eulerUpdate]
  have h2 : (bufferMatrix d (s.evolve_step rho_data dt)).trace =
      (bufferMatrix d rho_data).trace := by
    rw [(evolve_step_packing s d hs hc hfin rho_data dt).2, trace_eulerUpdate]
  refine ⟨h1, h2, ?_⟩
  intro tol htol
  rw [h1, sub_self]
  simpa using htol

/-- C7, at the Hamiltonian-only example engine, the matrix with all entries `1/2`,
`dt = 1` and `max_dt = 1/2`. -/
theorem C7_trace_preserved_hamiltonian_only_witness :
    (bufferMatrix 2 (exampleHamiltonianEngine.evolve examplePlus 1 (1 / 2))).trace =
      (bufferMatrix 2 examplePlus).trace :=
  (C7_trace_preserved_hamiltonian_only exampleHamiltonianEngine 2 examplePlus 1 (1 / 2)
    (QuantumEvolutionEngine.reachable_run _) rfl (by decide) rfl rfl rfl (by norm_num)).1

/-- C8. For a finalized engine of dimension `d` whose Hamiltonian is Hermitian or absent
and whose Lindblad operators are arbitrary `d`-by-`d` matrices, a Hermitian input of
length `2 d d` and every real `dt`, the matrix `ρ'` returned by `evolve_step`, and by
`evolve` for `max_dt > 0`, satisfies `ρ' − ρ'† = 0`. -/
theorem C8_hermiticity_preserved (s : QuantumEvolutionEngine) (d : ℕ) (rho_data : List ℚ)
    (dt max_dt : ℚ) (hreach : Reachable s) (hfin : s.is_finalized = true) (hs : s.Sized d)
    (hH : s.m_has_hamiltonian = true → (s.m_hamiltonian.toMatrix d).IsHermitian)
    (hlen : rho_data.length = 2 * d * d) (hρ : (bufferMatrix d rho_data).IsHermitian)
    (hmax : 0 < max_dt) :
    bufferMatrix d (s.evolve_step rho_data dt) -
        (bufferMatrix d (s.evolve_step rho_data dt)).conjTranspose = 0 ∧
    bufferMatrix d (s.evolve rho_data dt max_dt) -
        (bufferMatrix d (s.evolve rho_data dt max_dt)).conjTranspose = 0 := by
  have hc := reachable_cachesFresh hreach hfin
  have hH' : ∀ M ∈ s.hamiltonian? d, M.IsHermitian := by
    intro M hM
    by_cases h : s.m_has_hamiltonian = true
    · simp only [hamiltonian?, h, if_true, Option.mem_def, Option.some.injEq] at hM
      rw [← hM]
      exact hH h
    · simp [hamiltonian?, h] at hM
  constructor
  · rw [(evolve_step_packing s d hs hc hfin rho_data dt).2, sub_eq_zero]
    exact (isHermitian_eulerUpdate _ _ dt _ hH' hρ).symm
  · rw [(evolve_packing s d hs hc hfin rho_data dt max_dt).2, sub_eq_zero]
    exact (isHermitian_iterate_eulerUpdate _ _ _ _ _ hH' hρ).symm

/-- C8, at the example engine, the matrix with all entries `1/2`, `dt = 1` and
`max_dt = 1/2`. -/
theorem C8_hermiticity_preserved_witness :
    bufferMatrix 2 (exampleEngine.evolve examplePlus 1 (1 / 2)) -
      (bufferMatrix 2 (exampleEngine.evolve examplePlus 1 (1 / 2))).conjTranspose = 0 :=
  (C8_hermiticity_preserved exampleEngine 2 examplePlus 1 (1 / 2)
    (QuantumEvolutionEngine.reachable_run _) rfl (by decide)
    (fun _ => by unfold Matrix.IsHermitian; decide!) rfl
    (by unfold Matrix.IsHermitian; decide!) (by norm_num)).2

/-- C9. For a finalized engine of dimension `d` with no Lindblad operators whose
Hamiltonian is absent or commutes with `ρ`, an input of length `2 d d` denoting `ρ`, and
every `dt`, `evolve_step` returns the input unchanged. -/
theorem C9_stationary_state (s : QuantumEvolutionEngine) (d : ℕ) (rho_data : List ℚ)
    (dt : ℚ) (hreach : Reachable s) (hfin : s.is_finalized = true) (hs : s.Sized d)
    (hL : s.get_lindblad_count = 0) (hlen : rho_data.length = 2 * d * d)
    (hcomm : s.m_has_hamiltonian = true →
      s.m_hamiltonian.toMatrix d * bufferMatrix d rho_data =
        bufferMatrix d rho_data * s.m_hamiltonian.toMatrix d) :
    s.evolve_step rho_data dt = rho_data := by
  have hc := reachable_cachesFresh hreach hfin
  have hnil : s.lindblads d = [] := by
    have : s.m_lindblads.length = 0 := by
      have h := hL
      simp only [get_lindblad_count] at h
      exact_mod_cast h
    simp [lindblads, List.length_eq_zero.mp this]
  have hH : ∀ M ∈ s.hamiltonian? d, M * bufferMatrix d rho_data = bufferMatrix d rho_data * M := by
    intro M hM
    by_cases h : s.m_has_hamiltonian = true
    · simp only [hamiltonian?, h, if_true, Option.mem_def, Option.some.injEq] at hM
      rw [← hM]
      exact hcomm h
    · simp [hamiltonian?, h] at hM
  obtain ⟨h1, h2⟩ := evolve_step_packing s d hs hc hfin rho_data dt
  apply buffer_ext d _ _ h1 hlen
  rw [h2, hnil, eulerUpdate_of_commute _ dt _ hH]

/-- C9, at dimension 2 with `H = diag(0, 1)` packed as `[0,0, 0,0, 0,0, 1,0]`,
`ρ = [[1, 0], [0, 0]]` and `dt = 0.01`: the array comes back, so `ρ'_00 = 1`, the
off-diagonal entries are zero, and `|ρ'_00 − 1| < 1e-3`. -/
theorem C9_stationary_state_witness :
    exampleHamiltonianEngine.evolve_step [1, 0, 0, 0, 0, 0, 0, 0] 0.01 =
      [1, 0, 0, 0, 0, 0, 0, 0] ∧
    |(exampleHamiltonianEngine.evolve_step [1, 0, 0, 0, 0, 0, 0, 0] 0.01).getD 0 0 - 1|
      < 1e-3 := by
  have h := C9_stationary_state exampleHamiltonianEngine 2 [1, 0, 0, 0, 0, 0, 0, 0] 0.01
    (QuantumEvolutionEngine.reachable_run _) rfl (by decide) rfl rfl (fun _ => by decide!)
  refine ⟨h, ?_⟩
  rw [h]
  norm_num

/-- C10, as stated, fails: at dimension 1 the two tuples `[0, 0, 1, 0]` and `[0, 0, 2, 0]`
are both retained and both addressed to entry `(0, 0)`, and the registered operator
carries their sum `3` there, not `1 + 0i` (nor `2 + 0i`). -/
theorem C10_counterexample :
    (QuantumEvolutionEngine.new.set_dimension 1).get_dimension = 1 ∧
    retainedTuples [0, 0, 1, 0, 0, 0, 2, 0] = [0, 1] ∧
    tupleRow [0, 0, 1, 0, 0, 0, 2, 0] 0 = 0 ∧
    tupleCol [0, 0, 1, 0, 0, 0, 2, 0] 0 = 0 ∧
    tupleValue [0, 0, 1, 0, 0, 0, 2, 0] 0 = ⟨1, 0⟩ ∧
    (((QuantumEvolutionEngine.new.set_dimension 1).add_lindblad_triplets
        [0, 0, 1, 0, 0, 0, 2, 0]).m_lindblads.map fun L => (L.rows, L.cols, L.coeff 0 0)) =
      [(1, 1, ⟨3, 0⟩)] := by
  decide!

/-- C10, amended. For an engine of dimension `d ≠ 0` and a flat list of 4-tuples
`[row, col, re, im]` whose addresses (truncated to `int`) lie in `0 .. d - 1`,
`add_lindblad_triplets` drops a tuple if and only if `|re| ≤ 1e-15` and `|im| ≤ 1e-15`
(`1e-15` being the double that the literal denotes, slightly above `10^-15`),
and appends the `d`-by-`d` matrix whose entry `(i, j)` is the sum of `re + i im` over the
retained tuples addressed to `(i, j)`: an entry addressed by no retained tuple is zero,
and an entry addressed by exactly one retained tuple carries that tuple's
`re + i im`. -/
theorem C10_sparse_ingestion (s : QuantumEvolutionEngine) (d : ℕ) (t : List ℚ)
    (hd : s.m_dim = (d : ℤ)) (hd0 : d ≠ 0)
    (hrange : ∀ k < t.length / 4,
      0 ≤ tupleRow t k ∧ tupleRow t k < d ∧ 0 ≤ tupleCol t k ∧ tupleCol t k < d) :
    parse_triplets t =
      (retainedTuples t).map (fun k => ⟨tupleRow t k, tupleCol t k, tupleValue t k⟩) ∧
    (∀ k, k ∈ retainedTuples t ↔
      k < t.length / 4 ∧
        ¬ (|t.getD (k * 4 + 2) 0| ≤ double_1e_15 ∧ |t.getD (k * 4 + 3) 0| ≤ double_1e_15)) ∧
    ∃ L : Mat,
      (s.add_lindblad_triplets t).m_lindblads = s.m_lindblads ++ [L] ∧
      L.rows = d ∧ L.cols = d ∧
      (∀ i j : ℕ, L.coeff i j =
        (((retainedTuples t).filter fun k =>
          tupleRow t k = (i : ℤ) ∧ tupleCol t k = (j : ℤ)).map (tupleValue t)).sum) ∧
      (∀ i j : ℕ, (∀ k ∈ retainedTuples t, ¬ (tupleRow t k = (i : ℤ) ∧ tupleCol t k = (j : ℤ))) →
        L.coeff i j = 0) ∧
      (∀ k₀ ∈ retainedTuples t,
        (∀ k ∈ retainedTuples t, tupleRow t k = tupleRow t k₀ → tupleCol t k = tupleCol t k₀ →
          k = k₀) →
        L.coeff (tupleRow t k₀).toNat (tupleCol t k₀).toNat = tupleValue t k₀) := by
  refine ⟨parse_triplets_eq t, mem_retainedTuples t, setFromTriplets d d (parse_triplets t),
    add_lindblad_triplets_lindblads s d hd hd0 t, rfl, rfl,
    fun i j => setFromTriplets_parse_coeff d d t i j, ?_, ?_⟩
  · intro i j hno
    rw [setFromTriplets_parse_coeff]
    have : (retainedTuples t).filter (fun k =>
        tupleRow t k = (i : ℤ) ∧ tupleCol t k = (j : ℤ)) = [] := by
      rw [List.filter_eq_nil_iff]
      intro k hk
      simpa using hno k hk
    rw [this]
    rfl
  · intro k₀ hk₀ huniq
    have hlt := ((mem_retainedTuples t k₀).mp hk₀).1
    obtain ⟨hr0, _, hc0, _⟩ := hrange k₀ hlt
    rw [setFromTriplets_parse_coeff]
    have er : (((tupleRow t k₀).toNat : ℕ) : ℤ) = tupleRow t k₀ := Int.toNat_of_nonneg hr0
    have ec : (((tupleCol t k₀).toNat : ℕ) : ℤ) = tupleCol t k₀ := Int.toNat_of_nonneg hc0
    rw [er, ec]
    exact sum_map_filter_eq_single (retainedTuples t) (retainedTuples_nodup t)
      (fun k => tupleRow t k = tupleRow t k₀ ∧ tupleCol t k = tupleCol t k₀) (tupleValue t)
      k₀ hk₀ ⟨rfl, rfl⟩ (fun k hk hp => huniq k hk hp.1 hp.2)

/-- C10 amended, at dimension 2 with the tuples `[0, 1, 1, 0]` (retained) and
`[1, 0, 0, 0]` (dropped): the only retained index is `0`; and a tuple whose real part is
the double `1e-15` itself is dropped, one whose real part is the next double above it is
retained. -/
theorem C10_sparse_ingestion_witness :
    parse_triplets [0, 1, 1, 0, 1, 0, 0, 0] =
      (retainedTuples [0, 1, 1, 0, 1, 0, 0, 0]).map (fun k =>
        ⟨tupleRow [0, 1, 1, 0, 1, 0, 0, 0] k, tupleCol [0, 1, 1, 0, 1, 0, 0, 0] k,
          tupleValue [0, 1, 1, 0, 1, 0, 0, 0] k⟩) ∧
    retainedTuples [0, 1, 1, 0, 1, 0, 0, 0] = [0] ∧
    retainedTuples [0, 0, double_1e_15, 0] = [] ∧
    retainedTuples [0, 0, double_1e_15 + 1 / 2 ^ 102, 0] = [0] :=
  ⟨(C10_sparse_ingestion (QuantumEvolutionEngine.new.set_dimension 2) 2
      [0, 1, 1, 0, 1, 0, 0, 0] rfl (by decide) (by decide!)).1, by decide!, by decide!,
    by decide!⟩

/-! ## Lemmas: the setup methods -/

namespace QuantumEvolutionEngine

/-- With no operator and no Hamiltonian registered, a finalized engine of dimension `d`
returns a buffer of length `2 d d` unchanged. -/
theorem evolve_step_of_empty_registry (s : QuantumEvolutionEngine) (d : ℕ)
    (hd : s.m_dim = (d : ℤ)) (hfin : s.m_finalized = true)
    (hH : s.m_has_hamiltonian = false) (hL : s.m_lindblads = []) (hc : s.CachesFresh)
    (rho_data : List ℚ) (dt : ℚ) (hlen : rho_data.length = 2 * d * d) :
    s.evolve_step rho_data dt = rho_data := by
  have hs : s.Sized d := ⟨hd, by simp [hH], by simp [hL]⟩
  obtain ⟨h1, h2⟩ := evolve_step_packing s d hs hc hfin rho_data dt
  apply buffer_ext d _ _ h1 hlen
  have hnone : s.hamiltonian? d = none := by simp [hamiltonian?, hH]
  have hnil : s.lindblads d = [] := by simp [lindblads, hL]
  rw [h2, hnil, hnone]
  exact eulerUpdate_of_commute none dt _ (by simp)

theorem finalize_finalize (s : QuantumEvolutionEngine) : s.finalize.finalize = s.finalize := by
  simp only [finalize, finalize_fold, List.nil_append]

end QuantumEvolutionEngine

/-- C11. On an engine whose dimension is unset (`get_dimension() == 0`), for every
argument, `set_hamiltonian` and `add_lindblad_triplets` change no member: the engine
after the call is the engine before it, so the Hamiltonian, the has-Hamiltonian flag,
the Lindblad list and its count, the caches and the finalized flag are unchanged. -/
theorem C11_setup_before_dimension_noop (s : QuantumEvolutionEngine)
    (H_packed triplets : List ℚ) (h : s.get_dimension = 0) :
    s.set_hamiltonian H_packed = s ∧
    s.add_lindblad_triplets triplets = s ∧
    (s.set_hamiltonian H_packed).m_hamiltonian = s.m_hamiltonian ∧
    (s.set_hamiltonian H_packed).m_has_hamiltonian = s.m_has_hamiltonian ∧
    (s.set_hamiltonian H_packed).is_finalized = s.is_finalized ∧
    (s.add_lindblad_triplets triplets).m_lindblads = s.m_lindblads ∧
    (s.add_lindblad_triplets triplets).get_lindblad_count = s.get_lindblad_count ∧
    (s.add_lindblad_triplets triplets).m_lindblad_dags = s.m_lindblad_dags ∧
    (s.add_lindblad_triplets triplets).m_LdagLs = s.m_LdagLs ∧
    (s.add_lindblad_triplets triplets).is_finalized = s.is_finalized := by
  have h0 : s.m_dim = 0 := h
  have e1 : s.set_hamiltonian H_packed = s := by simp [set_hamiltonian, h0]
  have e2 : s.add_lindblad_triplets triplets = s := by simp [add_lindblad_triplets, h0]
  rw [e1, e2]
  exact ⟨rfl, rfl, rfl, rfl, rfl, rfl, rfl, rfl, rfl, rfl⟩

/-- C11, at a newly constructed engine that was finalized: the flag stays set and the
operator count stays 0. -/
theorem C11_setup_before_dimension_noop_witness :
    QuantumEvolutionEngine.new.finalize.set_hamiltonian [0, 0, 0, 0, 0, 0, 1, 0] =
      QuantumEvolutionEngine.new.finalize ∧
    QuantumEvolutionEngine.new.finalize.add_lindblad_triplets [0, 1, 1, 0] =
      QuantumEvolutionEngine.new.finalize :=
  ⟨(C11_setup_before_dimension_noop QuantumEvolutionEngine.new.finalize
      [0, 0, 0, 0, 0, 0, 1, 0] [0, 1, 1, 0] rfl).1,
   (C11_setup_before_dimension_noop QuantumEvolutionEngine.new.finalize
      [0, 0, 0, 0, 0, 0, 1, 0] [0, 1, 1, 0] rfl).2.1⟩

/-- C12. For every engine state and every `dim`, after `set_dimension(dim)`
`get_dimension()` returns `dim` and `is_finalized()` returns false, and the registered
Hamiltonian, the has-Hamiltonian flag, the Lindblad operator list (so
`get_lindblad_count()`) and both cached lists are unchanged. -/
theorem C12_set_dimension_frame (s : QuantumEvolutionEngine) (dim : ℤ) :
    (s.set_dimension dim).get_dimension = dim ∧
    (s.set_dimension dim).is_finalized = false ∧
    (s.set_dimension dim).m_hamiltonian = s.m_hamiltonian ∧
    (s.set_dimension dim).m_has_hamiltonian = s.m_has_hamiltonian ∧
    (s.set_dimension dim).m_lindblads = s.m_lindblads ∧
    (s.set_dimension dim).get_lindblad_count = s.get_lindblad_count ∧
    (s.set_dimension dim).m_lindblad_dags = s.m_lindblad_dags ∧
    (s.set_dimension dim).m_LdagLs = s.m_LdagLs :=
  ⟨rfl, rfl, rfl, rfl, rfl, rfl, rfl, rfl⟩

/-- C13. For every engine state, after `clear_operators()` the operator count is 0, both
cached lists are empty, no Hamiltonian is registered, `is_finalized()` is false and
`get_dimension()` is unchanged; consequently, for an engine of dimension `d` and a
buffer of length `2 d d`, `finalize()` followed by `evolve_step` returns the buffer
unchanged. -/
theorem C13_clear_operators_postcondition (s : QuantumEvolutionEngine) :
    s.clear_operators.get_lindblad_count = 0 ∧
    s.clear_operators.m_lindblad_dags = [] ∧
    s.clear_operators.m_LdagLs = [] ∧
    s.clear_operators.m_has_hamiltonian = false ∧
    s.clear_operators.is_finalized = false ∧
    s.clear_operators.get_dimension = s.get_dimension ∧
    ∀ (d : ℕ) (rho_data : List ℚ) (dt : ℚ), s.get_dimension = (d : ℤ) →
      rho_data.length = 2 * d * d →
      s.clear_operators.finalize.evolve_step rho_data dt = rho_data := by
  refine ⟨rfl, rfl, rfl, rfl, rfl, rfl, ?_⟩
  intro d rho_data dt hd hlen
  exact evolve_step_of_empty_registry s.clear_operators.finalize d hd rfl rfl rfl
    (finalize_cachesFresh _) rho_data dt hlen

/-- C13, at the example engine and the matrix with all entries `1/2`. -/
theorem C13_clear_operators_postcondition_witness :
    exampleEngine.clear_operators.finalize.evolve_step examplePlus (1 / 2) = examplePlus :=
  (C13_clear_operators_postcondition exampleEngine).2.2.2.2.2.2 2 examplePlus (1 / 2) rfl rfl

/-- C14. For every engine state `s`, `finalize(finalize(s)) = finalize(s)`, and
`finalize(s)` has the dimension, the Hamiltonian, the has-Hamiltonian flag and the
Lindblad operator list of `s`, has `is_finalized()` true, and holds one cached adjoint
and one cached product per registered Lindblad operator. -/
theorem C14_finalize_idempotent (s : QuantumEvolutionEngine) :
    s.finalize.finalize = s.finalize ∧
    s.finalize.get_dimension = s.get_dimension ∧
    s.finalize.m_hamiltonian = s.m_hamiltonian ∧
    s.finalize.m_has_hamiltonian = s.m_has_hamiltonian ∧
    s.finalize.m_lindblads = s.m_lindblads ∧
    s.finalize.is_finalized = true ∧
    s.finalize.m_lindblad_dags.length = s.m_lindblads.length ∧
    s.finalize.m_LdagLs.length = s.m_lindblads.length ∧
    s.finalize.m_lindblad_dags = s.m_lindblads.map Mat.adjoint ∧
    s.finalize.m_LdagLs = s.m_lindblads.map (fun L => L.adjoint.mul L) := by
  obtain ⟨h1, h2⟩ := finalize_cachesFresh s
  have e : s.finalize.m_lindblads = s.m_lindblads := rfl
  rw [e] at h1 h2
  refine ⟨finalize_finalize s, rfl, rfl, rfl, rfl, rfl, ?_, ?_, h1, h2⟩
  · rw [h1, List.length_map]
  · rw [h2, List.length_map]

/-! ## Lemmas: the dense matrix object -/

namespace QuantumMatrixNative

theorem pack_matrix_eq_pack_dense (mat : Mat) (dim : ℤ) :
    pack_matrix mat dim =
      QuantumEvolutionEngine.pack_dense { QuantumEvolutionEngine.new with m_dim := dim } mat :=
  rfl

theorem from_packed_matrix (m : QuantumMatrixNative) (data : List ℚ) (dim : ℤ) :
    (m.from_packed data dim).m_matrix =
      QuantumEvolutionEngine.unpack_dense { QuantumEvolutionEngine.new with m_dim := dim } data :=
  rfl

theorem to_packed_from_packed (m : QuantumMatrixNative) (dim : ℕ) (data : List ℚ)
    (hlen : data.length = 2 * dim * dim) : (m.from_packed data (dim : ℤ)).to_packed = data := by
  unfold to_packed
  rw [from_packed_matrix, pack_matrix_eq_pack_dense]
  exact QuantumEvolutionEngine.pack_dense_unpack_dense _ dim rfl data hlen

end QuantumMatrixNative

theorem QuantumEvolutionEngine.unpack_dense_coeff (s : QuantumEvolutionEngine) (dim : ℕ)
    (hd : s.m_dim = (dim : ℤ)) (data : List ℚ) (hlen : data.length = 2 * dim * dim)
    (i j : ℕ) (hi : i < dim) (hj : j < dim) :
    data[2 * (i * dim + j)]? = some ((s.unpack_dense data).coeff i j).re ∧
    data[2 * (i * dim + j) + 1]? = some ((s.unpack_dense data).coeff i j).im := by
  have h1 : s.m_dim.toNat = dim := by rw [hd]; exact Int.toNat_natCast dim
  have hlt := index_lt hi hj
  have e : (i * dim + j) * 2 = 2 * (i * dim + j) := Nat.mul_comm _ _
  have k0 : 2 * (i * dim + j) < data.length := by omega
  have k1 : 2 * (i * dim + j) + 1 < data.length := by omega
  simp only [unpack_dense, h1, e]
  rw [List.getD_eq_getElem _ _ k0, List.getD_eq_getElem _ _ k1,
    List.getElem?_eq_getElem k0, List.getElem?_eq_getElem k1]
  exact ⟨rfl, rfl⟩

/-- C15. For every `dim ≥ 0` and every buffer `d` of length `2 dim dim`, `unpack_dense`
gives a `dim`-by-`dim` matrix whose entry `(i, j)` is `d[2 (i dim + j)] + i d[2 (i dim + j) + 1]`
(row-major, interleaved), `pack_dense(unpack_dense(d)) = d` with length `2 dim dim`, and
`to_packed()` after `from_packed(d, dim)` on a `QuantumMatrixNative` returns `d`. -/
theorem C15_flat_layout_round_trip (s : QuantumEvolutionEngine) (m : QuantumMatrixNative)
    (dim : ℕ) (d : List ℚ) (hs : s.get_dimension = (dim : ℤ))
    (hlen : d.length = 2 * dim * dim) :
    (s.unpack_dense d).rows = dim ∧ (s.unpack_dense d).cols = dim ∧
    (∀ i j : ℕ, i < dim → j < dim →
      d[2 * (i * dim + j)]? = some ((s.unpack_dense d).coeff i j).re ∧
      d[2 * (i * dim + j) + 1]? = some ((s.unpack_dense d).coeff i j).im) ∧
    s.pack_dense (s.unpack_dense d) = d ∧
    (s.pack_dense (s.unpack_dense d)).length = 2 * dim * dim ∧
    (m.from_packed d (dim : ℤ)).to_packed = d :=
  ⟨unpack_dense_rows s dim hs d, unpack_dense_cols s dim hs d,
   fun i j hi hj => unpack_dense_coeff s dim hs d hlen i j hi hj,
   pack_dense_unpack_dense s dim hs d hlen,
   pack_dense_length s dim hs _,
   QuantumMatrixNative.to_packed_from_packed m dim d hlen⟩

/-- C15, at dimension 2 and the buffer `[1, 2, 3, 4, 5, 6, 7, 8]`: entry `(1, 0)` is
`5 + 6i`, and both round trips return the buffer. -/
theorem C15_flat_layout_round_trip_witness :
    ((QuantumEvolutionEngine.new.set_dimension 2).unpack_dense
      [1, 2, 3, 4, 5, 6, 7, 8]).coeff 1 0 = ⟨5, 6⟩ ∧
    (QuantumEvolutionEngine.new.set_dimension 2).pack_dense
      ((QuantumEvolutionEngine.new.set_dimension 2).unpack_dense [1, 2, 3, 4, 5, 6, 7, 8]) =
      [1, 2, 3, 4, 5, 6, 7, 8] ∧
    (QuantumMatrixNative.new.from_packed [1, 2, 3, 4, 5, 6, 7, 8] 2).to_packed =
      [1, 2, 3, 4, 5, 6, 7, 8] :=
  ⟨by decide,
   (C15_flat_layout_round_trip (QuantumEvolutionEngine.new.set_dimension 2)
      QuantumMatrixNative.new 2 [1, 2, 3, 4, 5, 6, 7, 8] rfl rfl).2.2.2.1,
   (C15_flat_layout_round_trip (QuantumEvolutionEngine.new.set_dimension 2)
      QuantumMatrixNative.new 2 [1, 2, 3, 4, 5, 6, 7, 8] rfl rfl).2.2.2.2.2⟩

/-! ## Lemmas: dimension consistency and registration order -/

namespace QuantumEvolutionEngine

theorem reachableKeepingDimension_sides {s : QuantumEvolutionEngine}
    (h : ReachableKeepingDimension s) :
    (s.m_has_hamiltonian = true →
      s.m_hamiltonian.rows = s.m_dim.toNat ∧ s.m_hamiltonian.cols = s.m_dim.toNat) ∧
    ∀ L ∈ s.m_lindblads, L.rows = s.m_dim.toNat ∧ L.cols = s.m_dim.toNat := by
  induction h with
  | new => exact ⟨fun h => absurd h (by decide), fun L hL => absurd hL (List.not_mem_nil L)⟩
  | @call s c _ hk ih =>
    obtain ⟨ihH, ihL⟩ := ih
    cases c with
    | set_dimension dim =>
      rcases hk with hk | ⟨hk1, hk2⟩
      · subst hk
        exact ⟨ihH, ihL⟩
      · refine ⟨fun h => ?_, fun L hL => ?_⟩
        · have h' : s.m_has_hamiltonian = true := h
          rw [hk1] at h'
          exact absurd h' (by decide)
        · have hL' : L ∈ s.m_lindblads := hL
          rw [hk2] at hL'
          exact absurd hL' (List.not_mem_nil L)
    | set_hamiltonian H =>
      by_cases hd : s.m_dim = 0
      · simpa [call, set_hamiltonian, hd] using And.intro ihH ihL
      · simp only [call, set_hamiltonian, hd, if_false]
        exact ⟨fun _ => ⟨rfl, rfl⟩, ihL⟩
    | add_lindblad_triplets t =>
      by_cases hd : s.m_dim = 0
      · simpa [call, add_lindblad_triplets, hd] using And.intro ihH ihL
      · simp only [call, add_lindblad_triplets, hd, if_false]
        refine ⟨ihH, fun L hL => ?_⟩
        rcases List.mem_append.mp hL with hL | hL
        · exact ihL L hL
        · rw [List.mem_singleton] at hL
          subst hL
          exact ⟨rfl, rfl⟩
    | clear_operators =>
      exact ⟨fun h => absurd h (by simp [call, clear_operators]),
        fun L hL => absurd hL (by simp [call, clear_operators])⟩
    | finalize => exact ⟨ihH, ihL⟩
    | evolve_step rho dt => exact ⟨ihH, ihL⟩
    | evolve rho dt max_dt => exact ⟨ihH, ihL⟩

theorem masterEquation_perm {d : ℕ} (H : Option (CMatrix d)) {Ls Ls' : List (CMatrix d)}
    (h : Ls.Perm Ls') (ρ : CMatrix d) : masterEquation H Ls ρ = masterEquation H Ls' ρ := by
  unfold masterEquation
  rw [(h.map fun L => dissipator L ρ).sum_eq]

theorem eulerUpdate_perm {d : ℕ} (H : Option (CMatrix d)) {Ls Ls' : List (CMatrix d)}
    (h : Ls.Perm Ls') (dt : ℚ) : eulerUpdate H Ls dt = eulerUpdate H Ls' dt := by
  funext ρ
  unfold eulerUpdate
  rw [masterEquation_perm H h ρ]

end QuantumEvolutionEngine

/-- C17, as stated, fails: after `set_dimension(2)`, one `add_lindblad_triplets` and
`set_dimension(3)` the dimension is 3 and the registered operator is still 2-by-2. -/
theorem C17_counterexample :
    Reachable (run [.set_dimension 2, .add_lindblad_triplets [0, 1, 1, 0], .set_dimension 3]) ∧
    (run [.set_dimension 2, .add_lindblad_triplets [0, 1, 1, 0],
      .set_dimension 3]).get_dimension = 3 ∧
    ((run [.set_dimension 2, .add_lindblad_triplets [0, 1, 1, 0],
      .set_dimension 3]).m_lindblads.map fun L => (L.rows, L.cols)) = [(2, 2)] :=
  ⟨reachable_run _, rfl, by decide⟩

/-- C17, amended. In every state reachable from the constructor by calls of the public
methods among which no `set_dimension` changes the dimension while a Hamiltonian or a
Lindblad operator is registered, the registered Hamiltonian (if any) and every
registered Lindblad operator are square matrices whose side is the current
`get_dimension()`, when that is not negative. -/
theorem C17_dimension_consistency (s : QuantumEvolutionEngine) (d : ℕ)
    (h : ReachableKeepingDimension s) (hd : s.get_dimension = (d : ℤ)) :
    (s.m_has_hamiltonian = true → s.m_hamiltonian.rows = d ∧ s.m_hamiltonian.cols = d) ∧
    ∀ L ∈ s.m_lindblads, L.rows = d ∧ L.cols = d := by
  have ht : s.m_dim.toNat = d := by
    have hd' : s.m_dim = (d : ℤ) := hd
    rw [hd']
    exact Int.toNat_natCast d
  have hinv := reachableKeepingDimension_sides h
  rw [ht] at hinv
  exact hinv

/-- C17 amended, at the example engine: dimension 2, a 2-by-2 Hamiltonian and one 2-by-2
operator. -/
theorem C17_dimension_consistency_witness :
    (exampleEngine.m_has_hamiltonian = true →
      exampleEngine.m_hamiltonian.rows = 2 ∧ exampleEngine.m_hamiltonian.cols = 2) ∧
    ∀ L ∈ exampleEngine.m_lindblads, L.rows = 2 ∧ L.cols = 2 :=
  C17_dimension_consistency exampleEngine 2
    (.call .finalize
      (.call (.add_lindblad_triplets [0, 1, 1, 0])
        (.call (.set_hamiltonian [0, 0, 0, 0, 0, 0, 1, 0])
          (.call (.set_dimension 2) .new (Or.inr ⟨rfl, rfl⟩)) trivial) trivial) trivial)
    rfl

/-- C18. For two finalized engines of the same dimension `d` with the same Hamiltonian
(or none) whose `d`-by-`d` Lindblad operator lists are permutations of one another,
`evolve_step(rho, dt)`, and `evolve(rho, dt, max_dt)` for `max_dt > 0`, return the same
array for every `rho` and `dt`; in each engine the caches hold, in order, the adjoint
and the product of the operator at the same index. -/
theorem C18_registration_order_irrelevant (s₁ s₂ : QuantumEvolutionEngine) (d : ℕ)
    (rho_data : List ℚ) (dt max_dt : ℚ) (hr₁ : Reachable s₁) (hr₂ : Reachable s₂)
    (hf₁ : s₁.is_finalized = true) (hf₂ : s₂.is_finalized = true) (hs₁ : s₁.Sized d)
    (hs₂ : s₂.Sized d) (hH : s₁.hamiltonian? d = s₂.hamiltonian? d)
    (hperm : s₁.m_lindblads.Perm s₂.m_lindblads) (hmax : 0 < max_dt) :
    s₁.evolve_step rho_data dt = s₂.evolve_step rho_data dt ∧
    s₁.evolve rho_data dt max_dt = s₂.evolve rho_data dt max_dt ∧
    s₁.m_lindblad_dags = s₁.m_lindblads.map Mat.adjoint ∧
    s₁.m_LdagLs = s₁.m_lindblads.map (fun L => L.adjoint.mul L) ∧
    s₂.m_lindblad_dags = s₂.m_lindblads.map Mat.adjoint ∧
    s₂.m_LdagLs = s₂.m_lindblads.map (fun L => L.adjoint.mul L) := by
  have hc₁ := reachable_cachesFresh hr₁ hf₁
  have hc₂ := reachable_cachesFresh hr₂ hf₂
  have hp : (s₁.lindblads d).Perm (s₂.lindblads d) := hperm.map _
  refine ⟨?_, ?_, hc₁.1, hc₁.2, hc₂.1, hc₂.2⟩
  · obtain ⟨a1, a2⟩ := evolve_step_packing s₁ d hs₁ hc₁ hf₁ rho_data dt
    obtain ⟨b1, b2⟩ := evolve_step_packing s₂ d hs₂ hc₂ hf₂ rho_data dt
    apply buffer_ext d _ _ a1 b1
    rw [a2, b2, hH, eulerUpdate_perm _ hp]
  · obtain ⟨a1, a2⟩ := evolve_packing s₁ d hs₁ hc₁ hf₁ rho_data dt max_dt
    obtain ⟨b1, b2⟩ := evolve_packing s₂ d hs₂ hc₂ hf₂ rho_data dt max_dt
    apply buffer_ext d _ _ a1 b1
    rw [a2, b2, hH, eulerUpdate_perm _ hp]

/-- C18, at two engines of dimension 2 holding the same two operators in opposite
orders, the matrix with all entries `1/2` and `dt = 1/2`. -/
theorem C18_registration_order_irrelevant_witness :
    exampleEngineAB.evolve_step examplePlus (1 / 2) =
      exampleEngineBA.evolve_step examplePlus (1 / 2) :=
  (C18_registration_order_irrelevant exampleEngineAB exampleEngineBA 2 examplePlus (1 / 2) 1
    (reachable_run _) (reachable_run _) rfl rfl (by decide) (by decide) rfl
    (List.Perm.swap _ _ []) (by norm_num)).1

/-! ## Lemmas: the solver wrapper -/

namespace QuantumSolverCPUNative

theorem unpack_flat_inner_reads (flat : List ℚ) (i m : ℕ) (st : Mat × ℕ) :
    ((List.range m).foldl (fun (st : Mat × ℕ) j =>
      let re := flat.getD st.2 0
      let im := flat.getD (st.2 + 1) 0
      (st.1.set i j ⟨re, im⟩, st.2 + 2)) st).2 = st.2 + 2 * m := by
  induction m with
  | zero => rfl
  | succ m ih =>
    rw [List.range_succ, List.foldl_append]
    simp only [List.foldl_cons, List.foldl_nil, ih]
    ring

theorem unpack_flat_outer_reads (flat : List ℚ) (d n : ℕ) (st : Mat × ℕ) :
    ((List.range n).foldl (fun (st : Mat × ℕ) i =>
      (List.range d).foldl (fun (st : Mat × ℕ) j =>
        let re := flat.getD st.2 0
        let im := flat.getD (st.2 + 1) 0
        (st.1.set i j ⟨re, im⟩, st.2 + 2)) st) st).2 = st.2 + 2 * d * n := by
  induction n with
  | zero => rfl
  | succ n ih =>
    rw [List.range_succ, List.foldl_append]
    simp only [List.foldl_cons, List.foldl_nil]
    rw [unpack_flat_inner_reads, ih]
    ring

theorem unpack_flat_reads (dim : ℕ) (flat : List ℚ) :
    (unpack_flat (dim : ℤ) flat).2 = 2 * dim * dim := by
  unfold unpack_flat
  rw [Int.toNat_natCast, unpack_flat_outer_reads]
  simp

theorem neverInitialised_solver {S : Type} {c : QuantumSolverCPU S}
    {w : QuantumSolverCPUNative S} (h : NeverInitialised c w) : w.solver = none := by
  induction h with
  | new => rfl
  | set_hamiltonian_flat _ _ ih => simp [set_hamiltonian_flat, ih]
  | add_lindblad_operator _ _ ih => simp [add_lindblad_operator, ih]
  | clear_lindblad_operators _ ih => simp [clear_lindblad_operators, ih]
  | evolve _ _ _ ih => simp [evolve, ih]
  | evolve_unitary _ _ _ ih => simp [evolve_unitary, ih]
  | evolve_lindblad _ _ _ ih => simp [evolve_lindblad, ih]
  | expectation_value _ _ _ ih => simp [expectation_value, ih]
  | purity _ _ ih => simp [purity, ih]
  | trace _ _ ih => simp [trace, ih]
  | normalize _ _ ih => simp [normalize, ih]
  | set_pade_order _ _ ih => simp [set_pade_order, ih]
  | set_multithreading _ _ ih => simp [set_multithreading, ih]

end QuantumSolverCPUNative

/-- C16: the code at a buffer of the wrong length.  On a wrapper initialized with
dimension `dim`, for a buffer whose length is not `2 dim dim`, `set_hamiltonian_flat`,
`add_lindblad_operator`, `evolve`, `evolve_unitary` and `evolve_lindblad` return their
default without a read or a call of the core solver; but `trace`, `purity`, `normalize`
and `expectation_value` have no size check: each runs its unpacking loops, reading
`2 dim dim` elements per buffer, and calls the core solver once. -/
theorem C16_observables_skip_size_check {S : Type} (c : QuantumSolverCPU S) (solver : S)
    (dim : ℕ) (flat other : List ℚ) (dt : ℚ) (hdim : c.hilbert_dim solver = (dim : ℤ))
    (hlen : flat.length ≠ 2 * dim * dim) :
    QuantumSolverCPUNative.set_hamiltonian_flat c ⟨some solver⟩ flat =
      ⟨⟨some solver⟩, (), 0, 0⟩ ∧
    QuantumSolverCPUNative.add_lindblad_operator c ⟨some solver⟩ flat =
      ⟨⟨some solver⟩, (), 0, 0⟩ ∧
    QuantumSolverCPUNative.evolve c ⟨some solver⟩ flat dt = ⟨⟨some solver⟩, [], 0, 0⟩ ∧
    QuantumSolverCPUNative.evolve_unitary c ⟨some solver⟩ flat dt =
      ⟨⟨some solver⟩, [], 0, 0⟩ ∧
    QuantumSolverCPUNative.evolve_lindblad c ⟨some solver⟩ flat dt =
      ⟨⟨some solver⟩, [], 0, 0⟩ ∧
    ((QuantumSolverCPUNative.trace c ⟨some solver⟩ flat).calls = 1 ∧
      (QuantumSolverCPUNative.trace c ⟨some solver⟩ flat).reads = 2 * dim * dim) ∧
    ((QuantumSolverCPUNative.purity c ⟨some solver⟩ flat).calls = 1 ∧
      (QuantumSolverCPUNative.purity c ⟨some solver⟩ flat).reads = 2 * dim * dim) ∧
    ((QuantumSolverCPUNative.normalize c ⟨some solver⟩ flat).calls = 1 ∧
      (QuantumSolverCPUNative.normalize c ⟨some solver⟩ flat).reads = 2 * dim * dim) ∧
    ((QuantumSolverCPUNative.expectation_value c ⟨some solver⟩ flat other).calls = 1 ∧
      (QuantumSolverCPUNative.expectation_value c ⟨some solver⟩ flat other).reads =
        2 * dim * dim + 2 * dim * dim) ∧
    ((QuantumSolverCPUNative.expectation_value c ⟨some solver⟩ other flat).calls = 1 ∧
      (QuantumSolverCPUNative.expectation_value c ⟨some solver⟩ other flat).reads =
        2 * dim * dim + 2 * dim * dim) := by
  have hne : (flat.length : ℤ) ≠ 2 * (dim : ℤ) * (dim : ℤ) := by
    intro h
    apply hlen
    exact_mod_cast h
  have hr := QuantumSolverCPUNative.unpack_flat_reads dim
  refine ⟨?_, ?_, ?_, ?_, ?_, ⟨rfl, ?_⟩, ⟨rfl, ?_⟩, ⟨rfl, ?_⟩, ⟨rfl, ?_⟩, ⟨rfl, ?_⟩⟩
  · simp only [QuantumSolverCPUNative.set_hamiltonian_flat, hdim, hne, ne_eq,
      not_false_eq_true, if_true]
  · simp only [QuantumSolverCPUNative.add_lindblad_operator, hdim, hne, ne_eq,
      not_false_eq_true, if_true]
  · simp only [QuantumSolverCPUNative.evolve, hdim, hne, ne_eq, not_false_eq_true, if_true]
  · simp only [QuantumSolverCPUNative.evolve_unitary, hdim, hne, ne_eq, not_false_eq_true,
      if_true]
  · simp only [QuantumSolverCPUNative.evolve_lindblad, hdim, hne, ne_eq, not_false_eq_true,
      if_true]
  · simp only [QuantumSolverCPUNative.trace, hdim, hr]
  · simp only [QuantumSolverCPUNative.purity, hdim, hr]
  · simp only [QuantumSolverCPUNative.normalize, hdim, hr]
  · simp only [QuantumSolverCPUNative.expectation_value, hdim, hr]
  · simp only [QuantumSolverCPUNative.expectation_value, hdim, hr]

/-- C16, at a wrapper initialized with dimension 1 and the empty buffer: `trace` reads
two elements and the core solver receives one call, while `evolve` returns at its size
check. -/
theorem C16_observables_skip_size_check_witness :
    (QuantumSolverCPUNative.trace countingSolver
      (QuantumSolverCPUNative.initialise countingSolver QuantumSolverCPUNative.new 1) []).reads
        = 2 * 1 * 1 ∧
    (QuantumSolverCPUNative.trace countingSolver
      (QuantumSolverCPUNative.initialise countingSolver QuantumSolverCPUNative.new 1)
        []).self.solver = some (1, 1) ∧
    (QuantumSolverCPUNative.evolve countingSolver
      (QuantumSolverCPUNative.initialise countingSolver QuantumSolverCPUNative.new 1) []
        1).self.solver = some (1, 0) :=
  ⟨(C16_observables_skip_size_check countingSolver (1, 0) 1 [] [] 1 rfl (by decide)).2.2.2.2.2.1.2,
   rfl, by decide⟩

/-- C20. On a `QuantumSolverCPUNative` on which `initialize()` has never been called,
every method leaves the wrapper as it is, reads nothing, calls nothing in the core
solver, and returns a default: `evolve`, `evolve_unitary`, `evolve_lindblad` and
`normalize` return an empty array, `expectation_value` and `trace` return `[0.0, 0.0]`,
`purity` returns `0.0`, and `set_hamiltonian_flat`, `add_lindblad_operator`,
`clear_lindblad_operators`, `set_pade_order` and `set_multithreading` do nothing. -/
theorem C20_uninitialized_fail_soft {S : Type} (c : QuantumSolverCPU S)
    (w : QuantumSolverCPUNative S) (h : QuantumSolverCPUNative.NeverInitialised c w)
    (flat flat' : List ℚ) (dt : ℚ) (order : ℤ) (enabled : Bool) :
    w.evolve c flat dt = ⟨w, [], 0, 0⟩ ∧
    w.evolve_unitary c flat dt = ⟨w, [], 0, 0⟩ ∧
    w.evolve_lindblad c flat dt = ⟨w, [], 0, 0⟩ ∧
    w.normalize c flat = ⟨w, [], 0, 0⟩ ∧
    w.expectation_value c flat flat' = ⟨w, [0.0, 0.0], 0, 0⟩ ∧
    w.trace c flat = ⟨w, [0.0, 0.0], 0, 0⟩ ∧
    w.purity c flat = ⟨w, 0.0, 0, 0⟩ ∧
    w.set_hamiltonian_flat c flat = ⟨w, (), 0, 0⟩ ∧
    w.add_lindblad_operator c flat = ⟨w, (), 0, 0⟩ ∧
    w.clear_lindblad_operators c = ⟨w, (), 0, 0⟩ ∧
    w.set_pade_order c order = ⟨w, (), 0, 0⟩ ∧
    w.set_multithreading c enabled = ⟨w, (), 0, 0⟩ := by
  have hn := QuantumSolverCPUNative.neverInitialised_solver h
  refine ⟨?_, ?_, ?_, ?_, ?_, ?_, ?_, ?_, ?_, ?_, ?_, ?_⟩
  · simp only [QuantumSolverCPUNative.evolve, hn]
  · simp only [QuantumSolverCPUNative.evolve_unitary, hn]
  · simp only [QuantumSolverCPUNative.evolve_lindblad, hn]
  · simp only [QuantumSolverCPUNative.normalize, hn]
  · simp only [QuantumSolverCPUNative.expectation_value, hn]
  · simp only [QuantumSolverCPUNative.trace, hn]
  · simp only [QuantumSolverCPUNative.purity, hn]
  · simp only [QuantumSolverCPUNative.set_hamiltonian_flat, hn]
  · simp only [QuantumSolverCPUNative.add_lindblad_operator, hn]
  · simp only [QuantumSolverCPUNative.clear_lindblad_operators, hn]
  · simp only [QuantumSolverCPUNative.set_pade_order, hn]
  · simp only [QuantumSolverCPUNative.set_multithreading, hn]

/-- C20, at a newly constructed wrapper after two calls that are not `initialize()`:
`trace` returns `[0.0, 0.0]` and leaves the wrapper without a solver. -/
theorem C20_uninitialized_fail_soft_witness :
    ((((QuantumSolverCPUNative.new.set_pade_order countingSolver 5).self).evolve countingSolver
      [1, 0] 1).self).trace countingSolver [1, 0] =
    ⟨(((QuantumSolverCPUNative.new.set_pade_order countingSolver 5).self).evolve countingSolver
      [1, 0] 1).self, [0.0, 0.0], 0, 0⟩ :=
  (C20_uninitialized_fail_soft countingSolver _
    (.evolve [1, 0] 1 (.set_pade_order 5 .new)) [1, 0] [] 1 13 true).2.2.2.2.2.1

/-! ## Lemmas: the substeps of `evolve` -/

namespace QuantumEvolutionEngine

/-- The subcycling branch of `evolve`: `num_steps` Euler updates of size `sub_dt` on the
unpacked matrix, packed once. -/
theorem evolve_eq_substeps (s : QuantumEvolutionEngine) (rho_data : List ℚ) (dt max_dt : ℚ)
    (hfin : s.m_finalized = true) (hdt : ¬ dt ≤ max_dt) :
    s.evolve rho_data dt max_dt =
      s.pack_dense ((s.euler (sub_dt dt max_dt))^[(num_steps dt max_dt).toNat]
        (s.unpack_dense rho_data)) :=
  evolve_eq s rho_data dt max_dt hfin hdt

end QuantumEvolutionEngine

/-- C21. For a finalized engine of dimension `d` with any `d`-by-`d` Hamiltonian (or
none) and any list of `d`-by-`d` Lindblad operators, an input of length `2 d d` and every
`dt`, the trace of the matrix returned by `evolve_step` equals the trace of the input
matrix, and so does the trace of the matrix returned by `evolve` for `max_dt > 0`. -/
theorem C21_trace_preserved_with_dissipation (s : QuantumEvolutionEngine) (d : ℕ)
    (rho_data : List ℚ) (dt max_dt : ℚ) (hreach : Reachable s)
    (hfin : s.is_finalized = true) (hs : s.Sized d) (hlen : rho_data.length = 2 * d * d)
    (hmax : 0 < max_dt) :
    (bufferMatrix d (s.evolve_step rho_data dt)).trace = (bufferMatrix d rho_data).trace ∧
    (bufferMatrix d (s.evolve rho_data dt max_dt)).trace = (bufferMatrix d rho_data).trace := by
  have hc := reachable_cachesFresh hreach hfin
  constructor
  · rw [(evolve_step_packing s d hs hc hfin rho_data dt).2, trace_eulerUpdate]
  · rw [(evolve_packing s d hs hc hfin rho_data dt max_dt).2, trace_iterate_eulerUpdate]

/-- C21, at the example engine (a Hamiltonian and one Lindblad operator), the matrix with
all entries `1/2`, `dt = 1` and `max_dt = 1/2`: the trace stays `1`. -/
theorem C21_trace_preserved_with_dissipation_witness :
    (bufferMatrix 2 (exampleEngine.evolve examplePlus 1 (1 / 2))).trace =
      (bufferMatrix 2 examplePlus).trace ∧
    (bufferMatrix 2 examplePlus).trace = 1 :=
  ⟨(C21_trace_preserved_with_dissipation exampleEngine 2 examplePlus 1 (1 / 2)
    (reachable_run _) rfl (by decide) rfl (by norm_num)).2, by decide!⟩

/-- C22, as stated, fails: at `dt = 2^32` and `max_dt = 1`, where every float operation
of `evolve` is exact, `ceil(dt / max_dt) = 2^32` is beyond the range of `int`; the
conversion gives `INT_MIN`, not a count `≥ 2`, and `evolve` runs no update and returns its
input. The same happens at `dt = 1` and the float `max_dt = 1e-10f`. -/
theorem C22_counterexample :
    ((0 : ℚ) < 1 ∧ (1 : ℚ) < 2 ^ 32 ∧ ExactArithmetic (2 ^ 32) 1 ∧
      ⌈((2 : ℚ) ^ 32) / 1⌉ = 2 ^ 32 ∧
      num_steps (2 ^ 32) 1 = -2 ^ 31 ∧
      ¬ 2 ≤ num_steps (2 ^ 32) 1 ∧
      exampleEngine.evolve examplePlus (2 ^ 32) 1 = examplePlus) ∧
    ((0 : ℚ) < float_1e_10 ∧ float_1e_10 < 1 ∧ float_round float_1e_10 = float_1e_10 ∧
      (2 ^ 31 - 1 : ℤ) < ⌈float_round (1 / float_1e_10)⌉ ∧
      num_steps 1 float_1e_10 = -2 ^ 31 ∧
      ¬ 2 ≤ num_steps 1 float_1e_10 ∧
      exampleEngine.evolve examplePlus 1 float_1e_10 = examplePlus) := by
  decide!

/-- C22, amended. For every `dt` and `max_dt` with `dt > max_dt > 0` and
`ceil(dt / max_dt) ≤ 2^31 - 1`, over exact arithmetic (the float operations of `evolve`
being exact at `dt` and `max_dt`): the substep count `n` that `evolve` computes is
`ceil(dt / max_dt)` and satisfies `n ≥ 2`, the substep size is `dt / n` and satisfies
`0 < dt / n ≤ max_dt`, and `n (dt / n) = dt`; on a finalized engine `evolve` runs `n`
Euler updates of that size. -/
theorem C22_substep_size_within_ceiling (s : QuantumEvolutionEngine) (rho_data : List ℚ)
    (dt max_dt : ℚ) (hmax : 0 < max_dt) (hdt : max_dt < dt)
    (hbound : ⌈dt / max_dt⌉ ≤ 2 ^ 31 - 1) (hexact : ExactArithmetic dt max_dt) :
    num_steps dt max_dt = ⌈dt / max_dt⌉ ∧
    2 ≤ num_steps dt max_dt ∧
    sub_dt dt max_dt = dt / (num_steps dt max_dt : ℚ) ∧
    0 < sub_dt dt max_dt ∧
    sub_dt dt max_dt ≤ max_dt ∧
    (num_steps dt max_dt : ℚ) * sub_dt dt max_dt = dt ∧
    (s.is_finalized = true →
      s.evolve rho_data dt max_dt =
        s.pack_dense ((s.euler (sub_dt dt max_dt))^[(num_steps dt max_dt).toNat]
          (s.unpack_dense rho_data))) := by
  have en := num_steps_of_exact dt max_dt hmax hdt hbound hexact
  have es := sub_dt_of_exact dt max_dt hmax hdt hbound hexact
  have h2 := two_le_ceil dt max_dt hmax hdt
  have hn : (0 : ℚ) < ((⌈dt / max_dt⌉ : ℤ) : ℚ) := by
    have : (0 : ℤ) < ⌈dt / max_dt⌉ := by omega
    exact_mod_cast this
  have hpos : 0 < dt := lt_trans hmax hdt
  have hle : dt / max_dt ≤ ((⌈dt / max_dt⌉ : ℤ) : ℚ) := Int.le_ceil _
  rw [es, en]
  refine ⟨rfl, h2, rfl, div_pos hpos hn, ?_, ?_, ?_⟩
  · rw [div_le_iff₀ hn]
    rw [div_le_iff₀ hmax] at hle
    linarith
  · rw [mul_div_cancel₀ _ hn.ne']
  · intro hfin
    rw [← es, ← en]
    exact evolve_eq_substeps s rho_data dt max_dt hfin (not_le.mpr hdt)

/-- C22 amended, at `dt = 3/4` and `max_dt = 1/2`: two substeps of size `3/8`. -/
theorem C22_substep_size_within_ceiling_witness :
    num_steps (3 / 4) (1 / 2) = ⌈((3 : ℚ) / 4) / (1 / 2)⌉ ∧ num_steps (3 / 4) (1 / 2) = 2 ∧
    sub_dt (3 / 4) (1 / 2) = 3 / 8 :=
  ⟨(C22_substep_size_within_ceiling exampleEngine examplePlus (3 / 4) (1 / 2) (by norm_num)
    (by norm_num) (by decide!) (by decide!)).1, by decide!, by decide!⟩

/-- C23. For a finalized engine of dimension `d`, whatever Hamiltonian and Lindblad
operators are registered, an input of length `2 d d` and `max_dt < 0 ≤ dt`, `evolve`
computes a substep count `ceil(dt / max_dt) ≤ 0`, runs zero Euler updates and returns the
input unchanged. -/
theorem C23_negative_ceiling_skips_evolution (s : QuantumEvolutionEngine) (d : ℕ)
    (rho_data : List ℚ) (dt max_dt : ℚ) (hfin : s.is_finalized = true)
    (hd : s.get_dimension = (d : ℤ)) (hlen : rho_data.length = 2 * d * d)
    (hmax : max_dt < 0) (hdt : 0 ≤ dt) :
    num_steps dt max_dt ≤ 0 ∧
    (num_steps dt max_dt).toNat = 0 ∧
    s.evolve rho_data dt max_dt =
      s.pack_dense ((s.euler (sub_dt dt max_dt))^[0] (s.unpack_dense rho_data)) ∧
    s.evolve rho_data dt max_dt = rho_data := by
  have hn := num_steps_nonpos dt max_dt hmax hdt
  have h0 : (num_steps dt max_dt).toNat = 0 := Int.toNat_eq_zero.mpr hn
  have hnle : ¬ dt ≤ max_dt := not_le.mpr (lt_of_lt_of_le hmax hdt)
  have he := evolve_eq_substeps s rho_data dt max_dt hfin hnle
  rw [h0] at he
  refine ⟨hn, h0, he, ?_⟩
  rw [he]
  exact pack_dense_unpack_dense s d hd rho_data hlen

/-- C23, at the example engine, the matrix with all entries `1/2`, `dt = 1` and
`max_dt = -1`. -/
theorem C23_negative_ceiling_skips_evolution_witness :
    exampleEngine.evolve examplePlus 1 (-1) = examplePlus ∧ num_steps 1 (-1) = -1 :=
  ⟨(C23_negative_ceiling_skips_evolution exampleEngine 2 examplePlus 1 (-1) rfl rfl rfl
    (by norm_num) (by norm_num)).2.2.2, by decide!⟩

end SpaceWheat
